import Mathlib

/-!
Verification development for the Bitcoin adapter's blockchain sync core
(`blockchainstate.rs` and `blockchainmanager.rs`).

The Rust code is shallowly embedded:
* `BlockHash` becomes `Nat` (`Hash`); a header's `block_hash()` is modelled as
  the field `hash` of the header record, and `prev_blockhash` as `prev`.
* `u32` heights and `Uint256` cumulative work become `Nat` (the code comments
  note that `u32` heights are "sufficient for a long while"; no claim here
  depends on wrap-around, and where the code uses saturating arithmetic we
  model the saturation explicitly).
* `HashMap`/`HashSet` become association lists / lists with explicit
  insert-replace, update-first and remove-first operations matching the map
  semantics (unique keys by construction).
* `SystemTime` becomes a `Nat` number of seconds threaded through as a `now`
  parameter; `StdRng`-driven `choose_multiple` becomes an explicit sampling
  function parameter.
-/

abbrev Hash := Nat
abbrev Addr := Nat
abbrev BlockHeight := Nat

/-- Models `bitcoin::BlockHeader`: `hash` is the value of `block_hash()`,
`prev` is `prev_blockhash`, `work` is the header's intrinsic `work()`. -/
structure BlockHeader where
  hash : Hash
  prev : Hash
  work : Nat
deriving DecidableEq, Repr

/-- `BlockHash::default()`, the all-zero stop hash. -/
def nullHash : Hash := 0

/-- Models `bitcoin::Block`: a header plus an abstract body whose
`check_merkle_root()` result is the `merkle_ok` flag. -/
structure Block where
  header : BlockHeader
  merkle_ok : Bool
deriving DecidableEq, Repr

/-- `CachedHeader` from blockchainstate.rs: a header with its height and the
cumulative work from genesis through this header. -/
structure CachedHeader where
  header : BlockHeader
  height : BlockHeight
  work : Nat
deriving DecidableEq, Repr

inductive AddHeaderResult where
  | HeaderAdded (c : CachedHeader)
  | HeaderAlreadyExists (c : CachedHeader)
deriving DecidableEq, Repr

inductive AddHeaderError where
  | InvalidHeader (h : Hash)
  | PrevHeaderNotCached (h : Hash)
deriving DecidableEq, Repr

inductive AddBlockError where
  | InvalidBlock (h : Hash)
  | Header (e : AddHeaderError)
deriving DecidableEq, Repr

/-! ### Association lists standing in for `HashMap` -/

/-- `HashMap::get`: first entry with the given key. -/
def alGet {κ α : Type} [DecidableEq κ] : List (κ × α) → κ → Option α
  | [], _ => none
  | p :: rest, k => if p.1 = k then some p.2 else alGet rest k

/-- `HashMap::insert`: replace the entry if the key is present, else append. -/
def alInsert {κ α : Type} [DecidableEq κ] : List (κ × α) → κ → α → List (κ × α)
  | [], k, v => [(k, v)]
  | p :: rest, k, v => if p.1 = k then (k, v) :: rest else p :: alInsert rest k v

/-- `HashMap::get_mut`-style update of the (first) entry with the given key. -/
def alUpdate {κ α : Type} [DecidableEq κ] : List (κ × α) → κ → (α → α) → List (κ × α)
  | [], _, _ => []
  | p :: rest, k, f => if p.1 = k then (p.1, f p.2) :: rest else p :: alUpdate rest k f

/-- `HashMap::remove`: drop the (first) entry with the given key. -/
def alRemove {κ α : Type} [DecidableEq κ] : List (κ × α) → κ → List (κ × α)
  | [], _ => []
  | p :: rest, k => if p.1 = k then rest else p :: alRemove rest k

/-! ### BlockchainState (blockchainstate.rs) -/

/-- `BlockchainState` from blockchainstate.rs. -/
structure BlockchainState where
  header_cache : List (Hash × CachedHeader)
  block_cache : List (Hash × Block)
  children : List (Hash × List Hash)
  cached_genesis : CachedHeader
  tips : List CachedHeader
deriving DecidableEq, Repr

/-- The genesis `CachedHeader` built in `BlockchainState::new`. -/
def mkCachedGenesis (g : BlockHeader) : CachedHeader :=
  { header := g, height := 0, work := g.work }

/-- `BlockchainState::new`: the genesis header is determined by the config's
network; we take it as the parameter `g`. -/
def BlockchainState.new (g : BlockHeader) : BlockchainState :=
  { header_cache := [(g.hash, mkCachedGenesis g)]
    block_cache := []
    children := []
    cached_genesis := mkCachedGenesis g
    tips := [mkCachedGenesis g] }

/-- `BlockchainState::genesis`. -/
def genesis (s : BlockchainState) : CachedHeader := s.cached_genesis

/-- `BlockchainState::is_header_valid` — the validity predicate is currently a
stub returning `true` (TODO ER-2120 in the source). -/
def is_header_valid (_s : BlockchainState) (_header : BlockHeader) : Bool := true

/-- `BlockchainState::get_header`. -/
def get_header (s : BlockchainState) (hash : Hash) : Option CachedHeader :=
  alGet s.header_cache hash

/-- `BlockchainState::get_children`. -/
def get_children (s : BlockchainState) (hash : Hash) : Option (List Hash) :=
  alGet s.children hash

/-- `BlockchainState::is_block_hash_known`. -/
def is_block_hash_known (s : BlockchainState) (block_hash : Hash) : Bool :=
  (alGet s.header_cache block_hash).isSome

/-- `BlockchainState::get_block`. -/
def get_block (s : BlockchainState) (block_hash : Hash) : Option Block :=
  alGet s.block_cache block_hash

/-- `BlockchainState::add_header`.  Mutation of `self` is modelled by returning
the new state alongside the `Result`. -/
def add_header (s : BlockchainState) (header : BlockHeader) :
    Except AddHeaderError AddHeaderResult × BlockchainState :=
  match alGet s.header_cache header.hash with
  | some cached_header => (.ok (.HeaderAlreadyExists cached_header), s)
  | none =>
    if is_header_valid s header then
      match alGet s.header_cache header.prev with
      | none => (.error (.PrevHeaderNotCached header.hash), s)
      | some prev_header =>
        let cached_header : CachedHeader :=
          { header := header
            height := prev_header.height + 1
            work := prev_header.work + header.work }
        let header_cache' := alInsert s.header_cache header.hash cached_header
        let children' :=
          alInsert s.children header.prev
            ((alGet s.children header.prev).getD [] ++ [header.hash])
        let tips' :=
          match s.tips.findIdx? (fun cached => cached.header.hash == header.prev) with
          | some idx => s.tips.set idx cached_header
          | none => s.tips ++ [cached_header]
        (.ok (.HeaderAdded cached_header),
          { s with header_cache := header_cache', children := children', tips := tips' })
    else (.error (.InvalidHeader header.hash), s)

/-- `BlockchainState::add_headers`: apply `add_header` in order, stopping at
the first failure; headers added before the failure are kept. -/
def add_headers (s : BlockchainState) :
    List BlockHeader → (List CachedHeader × Option AddHeaderError) × BlockchainState
  | [] => (([], none), s)
  | header :: rest =>
    match add_header s header with
    | (.ok (.HeaderAdded cached_header), s') =>
      let ((acc, e), s'') := add_headers s' rest
      ((cached_header :: acc, e), s'')
    | (.ok (.HeaderAlreadyExists _), s') => add_headers s' rest
    | (.error e, s') => (([], some e), s')

/-- `BlockchainState::is_block_valid` = `block.check_merkle_root()`. -/
def is_block_valid (_s : BlockchainState) (block : Block) : Bool := block.merkle_ok

/-- `BlockchainState::add_block`.  Note that when block validation fails the
header added by the inner `add_header` call remains cached. -/
def add_block (s : BlockchainState) (block : Block) :
    Except AddBlockError BlockHeight × BlockchainState :=
  let block_hash := block.header.hash
  match add_header s block.header with
  | (.error e, s') => (.error (.Header e), s')
  | (.ok result, s') =>
    if is_block_valid s' block then
      let s'' := { s' with block_cache := alInsert s'.block_cache block_hash block }
      match result with
      | .HeaderAdded cached => (.ok cached.height, s'')
      | .HeaderAlreadyExists cached => (.ok cached.height, s'')
    else (.error (.InvalidBlock block_hash), s')

/-- The scan loop of `BlockchainState::get_active_chain_tip`: starting from
`max_index = 0` and `max_work = Work::default() = 0`, remember the index of
the first strictly greater cumulative work. -/
def activeTipFold : List CachedHeader → Nat → Nat → Nat → Nat
  | [], _i, max_index, _max_work => max_index
  | cached :: rest, i, max_index, max_work =>
    if max_work < cached.work then activeTipFold rest (i + 1) i cached.work
    else activeTipFold rest (i + 1) max_index max_work

/-- `BlockchainState::get_active_chain_tip`; the Rust function indexes
`self.tips` and would panic on an empty list, which we model as `none`. -/
def get_active_chain_tip (s : BlockchainState) : Option CachedHeader :=
  s.tips.get? (activeTipFold s.tips 0 0 0)

/-- `BlockchainState::prune_old_blocks`: remove the given hashes from the block
cache only. -/
def prune_old_blocks (s : BlockchainState) (block_hashes : List Hash) : BlockchainState :=
  { s with block_cache := block_hashes.foldl (fun bc h => alRemove bc h) s.block_cache }

/-- Walk `n` steps towards genesis through `prev` pointers, as the inner loop
of `locator_hashes` does; `none` when some predecessor is not cached. -/
def backWalk (cache : List (Hash × CachedHeader)) : Nat → CachedHeader → Option CachedHeader
  | 0, cur => some cur
  | n + 1, cur =>
    match alGet cache cur.header.prev with
    | some prev => backWalk cache n prev
    | none => none

/-- The push loop of `BlockchainState::locator_hashes`: `fuel` outer
iterations (22 in the source), pushing the current hash then walking back
`step` predecessors; the step saturates-doubles (u32 `saturating_mul`) after
the iteration with index 7.  Stops early when the walk runs off the cache. -/
def locatorPushes (cache : List (Hash × CachedHeader)) :
    Nat → Nat → CachedHeader → Nat → List Hash
  | 0, _i, _cur, _step => []
  | fuel + 1, i, cur, step =>
    cur.header.hash ::
      match backWalk cache step cur with
      | none => []
      | some nxt =>
        locatorPushes cache fuel (i + 1) nxt
          (if 7 ≤ i then Nat.min (step * 2) 4294967295 else step)

/-- `BlockchainState::locator_hashes`.  In the source `last_hash` always equals
the most recently pushed hash, so the final `if last_hash != genesis_hash`
check is the `getLast?` comparison below.  `none` models the panic of
`get_active_chain_tip` on an empty tips list (unreachable from `new`). -/
def locator_hashes (s : BlockchainState) : Option (List Hash) :=
  (get_active_chain_tip s).map (fun tip =>
    let pushed := locatorPushes s.header_cache 22 0 tip 1
    let genesis_hash := s.cached_genesis.header.hash
    if pushed.getLast? = some genesis_hash then pushed else pushed ++ [genesis_hash])

/-! ### Reachable chain-store states -/

/-- States reachable from `BlockchainState::new` by the mutating operations
`add_header`, `add_headers`, `add_block` and `prune_old_blocks`. -/
inductive Reachable (g : BlockHeader) : BlockchainState → Prop
  | init : Reachable g (BlockchainState.new g)
  | step_add_header {s} (h : BlockHeader) :
      Reachable g s → Reachable g (add_header s h).2
  | step_add_headers {s} (hs : List BlockHeader) :
      Reachable g s → Reachable g (add_headers s hs).2
  | step_add_block {s} (b : Block) :
      Reachable g s → Reachable g (add_block s b).2
  | step_prune {s} (hashes : List Hash) :
      Reachable g s → Reachable g (prune_old_blocks s hashes)

/-! ### Association list lemmas -/

theorem alGet_insert_self {κ α : Type} [DecidableEq κ] (m : List (κ × α)) (k : κ) (v : α) :
    alGet (alInsert m k v) k = some v := by
  induction m with
  | nil => simp [alInsert, alGet]
  | cons p rest ih =>
    by_cases h : p.1 = k
    · simp [alInsert, h, alGet]
    · simp [alInsert, h, alGet, ih]

theorem alGet_insert_ne {κ α : Type} [DecidableEq κ] (m : List (κ × α)) (k k' : κ) (v : α)
    (h : k' ≠ k) : alGet (alInsert m k v) k' = alGet m k' := by
  induction m with
  | nil => simp [alInsert, alGet, Ne.symm h]
  | cons p rest ih =>
    by_cases hp : p.1 = k
    · subst hp
      simp [alInsert, alGet, Ne.symm h]
    · by_cases hp' : p.1 = k'
      · simp [alInsert, hp, alGet, hp', h]
      · simp [alInsert, hp, alGet, hp', ih]

theorem alGet_update_self {κ α : Type} [DecidableEq κ] (m : List (κ × α)) (k : κ) (f : α → α) :
    alGet (alUpdate m k f) k = (alGet m k).map f := by
  induction m with
  | nil => simp [alUpdate, alGet]
  | cons p rest ih =>
    by_cases h : p.1 = k
    · simp [alUpdate, h, alGet]
    · simp [alUpdate, h, alGet, ih]

theorem alGet_update_ne {κ α : Type} [DecidableEq κ] (m : List (κ × α)) (k k' : κ) (f : α → α)
    (h : k' ≠ k) : alGet (alUpdate m k f) k' = alGet m k' := by
  induction m with
  | nil => simp [alUpdate, alGet]
  | cons p rest ih =>
    by_cases hp : p.1 = k
    · subst hp
      simp [alUpdate, alGet, Ne.symm h]
    · by_cases hp' : p.1 = k'
      · simp [alUpdate, hp, alGet, hp', h]
      · simp [alUpdate, hp, alGet, hp', ih]

theorem mem_alInsert {κ α : Type} [DecidableEq κ] (m : List (κ × α)) (k : κ) (v : α)
    (p : κ × α) (hp : p ∈ alInsert m k v) : p = (k, v) ∨ p ∈ m := by
  induction m with
  | nil => simpa [alInsert] using hp
  | cons q rest ih =>
    by_cases h : q.1 = k
    · simp only [alInsert, h, if_pos rfl] at hp
      rcases List.mem_cons.1 hp with h1 | h1
      · exact Or.inl h1
      · exact Or.inr (List.mem_cons.2 (Or.inr h1))
    · simp only [alInsert, h, if_neg h] at hp
      rcases List.mem_cons.1 hp with h1 | h1
      · exact Or.inr (List.mem_cons.2 (Or.inl h1))
      · rcases ih h1 with h2 | h2
        · exact Or.inl h2
        · exact Or.inr (List.mem_cons.2 (Or.inr h2))

theorem alGet_none_iff {κ α : Type} [DecidableEq κ] (m : List (κ × α)) (k : κ) :
    alGet m k = none ↔ ∀ p ∈ m, p.1 ≠ k := by
  induction m with
  | nil => simp [alGet]
  | cons p rest ih =>
    by_cases h : p.1 = k
    · simp [alGet, h]
    · simp [alGet, h, ih]

theorem alGet_isSome_of_mem {κ α : Type} [DecidableEq κ] {m : List (κ × α)} {p : κ × α}
    (hp : p ∈ m) : (alGet m p.1).isSome := by
  induction m with
  | nil => cases hp
  | cons q rest ih =>
    rcases List.mem_cons.1 hp with h | h
    · subst h; simp [alGet]
    · by_cases hq : q.1 = p.1
      · simp [alGet, hq]
      · simp only [alGet, hq, if_neg hq]
        exact ih h

theorem mem_alRemove_of_mem {κ α : Type} [DecidableEq κ] {m : List (κ × α)} {p : κ × α} (k : κ)
    (hp : p ∈ m) (hk : p.1 ≠ k) : p ∈ alRemove m k := by
  induction m with
  | nil => cases hp
  | cons q rest ih =>
    rcases List.mem_cons.1 hp with h | h
    · subst h
      simp [alRemove, hk]
    · by_cases hq : q.1 = k
      · simpa [alRemove, hq] using h
      · simp only [alRemove, if_neg hq]
        exact List.mem_cons.2 (Or.inr (ih h))

theorem mem_of_mem_alRemove {κ α : Type} [DecidableEq κ] {m : List (κ × α)} {p : κ × α} {k : κ}
    (hp : p ∈ alRemove m k) : p ∈ m := by
  induction m with
  | nil => simp [alRemove] at hp
  | cons q rest ih =>
    by_cases hq : q.1 = k
    · simp only [alRemove, if_pos hq] at hp
      exact List.mem_cons.2 (Or.inr hp)
    · simp only [alRemove, if_neg hq] at hp
      rcases List.mem_cons.1 hp with h | h
      · exact List.mem_cons.2 (Or.inl h)
      · exact List.mem_cons.2 (Or.inr (ih h))

/-- Removing a key from an association list whose keys are `Nodup` leaves no
entry with that key. -/
theorem alGet_alRemove_self_of_nodup {κ α : Type} [DecidableEq κ] {m : List (κ × α)} {k : κ}
    (hnd : (m.map Prod.fst).Nodup) : alGet (alRemove m k) k = none := by
  induction m with
  | nil => simp [alRemove, alGet]
  | cons q rest ih =>
    simp only [List.map_cons, List.nodup_cons] at hnd
    by_cases hq : q.1 = k
    · subst hq
      simp only [alRemove, if_pos rfl]
      rw [alGet_none_iff]
      intro p hp hpk
      exact hnd.1 (hpk ▸ List.mem_map_of_mem Prod.fst hp)
    · simp only [alRemove, if_neg hq, alGet, if_neg hq]
      exact ih hnd.2

theorem alRemove_keys_sublist {κ α : Type} [DecidableEq κ] (m : List (κ × α)) (k : κ) :
    ((alRemove m k).map Prod.fst).Sublist (m.map Prod.fst) := by
  induction m with
  | nil => simp [alRemove]
  | cons q rest ih =>
    by_cases hq : q.1 = k
    · simp only [alRemove, if_pos hq, List.map_cons]
      exact (List.Sublist.refl _).cons q.1
    · simp only [alRemove, if_neg hq, List.map_cons]
      exact ih.cons₂ q.1

/-! ### Well-formedness invariant of reachable states -/

/-- Invariants maintained by every reachable `BlockchainState`: the genesis
header is cached, cache keys are the cached headers' hashes, every cached
non-genesis header has its parent cached with consistent height and
cumulative work, the tips list is non-empty, and every tip is cached. -/
structure StateWF (g : BlockHeader) (s : BlockchainState) : Prop where
  genesis_eq : s.cached_genesis = mkCachedGenesis g
  genesis_cached : alGet s.header_cache g.hash = some (mkCachedGenesis g)
  keys_eq : ∀ p ∈ s.header_cache, p.1 = p.2.header.hash
  height_work : ∀ p ∈ s.header_cache, p.1 ≠ g.hash →
      ∃ q, alGet s.header_cache p.2.header.prev = some q ∧
        p.2.height = q.height + 1 ∧ p.2.work = q.work + p.2.header.work
  tips_ne : s.tips ≠ []
  tips_cached : ∀ t ∈ s.tips, alGet s.header_cache t.header.hash = some t

theorem stateWF_add_header (g : BlockHeader) {s : BlockchainState} (h : BlockHeader)
    (hs : StateWF g s) : StateWF g (add_header s h).2 := by
  rcases hget : alGet s.header_cache h.hash with _ | c
  case some => simpa [add_header, hget] using hs
  case none =>
  rcases hprev : alGet s.header_cache h.prev with _ | q
  case none => simpa [add_header, hget, hprev, is_header_valid] using hs
  case some =>
  have hhg : h.hash ≠ g.hash := by
    intro he
    rw [he, hs.genesis_cached] at hget
    cases hget
  have hph : h.prev ≠ h.hash := by
    intro he
    rw [he, hget] at hprev
    cases hprev
  set newC : CachedHeader := { header := h, height := q.height + 1, work := q.work + h.work }
    with hnewC
  have hcache : (add_header s h).2.header_cache = alInsert s.header_cache h.hash newC := by
    simp [add_header, hget, hprev, is_header_valid, hnewC]
  have htips : (add_header s h).2.tips =
      (match s.tips.findIdx? (fun cached => cached.header.hash == h.prev) with
       | some idx => s.tips.set idx newC
       | none => s.tips ++ [newC]) := by
    simp [add_header, hget, hprev, is_header_valid, hnewC]
  have hgen : (add_header s h).2.cached_genesis = s.cached_genesis := by
    simp [add_header, hget, hprev, is_header_valid]
  -- lookups in the extended cache
  have hlook_new : alGet (alInsert s.header_cache h.hash newC) h.hash = some newC :=
    alGet_insert_self _ _ _
  have hlook_old : ∀ k, k ≠ h.hash →
      alGet (alInsert s.header_cache h.hash newC) k = alGet s.header_cache k := fun k hk =>
    alGet_insert_ne _ _ _ _ hk
  have htip_mem : ∀ t, t ∈ (add_header s h).2.tips → t = newC ∨ t ∈ s.tips := by
    intro t ht
    rw [htips] at ht
    rcases hidx : s.tips.findIdx? (fun cached => cached.header.hash == h.prev) with _ | idx
    · rw [hidx] at ht
      rcases List.mem_append.1 ht with h1 | h1
      · exact Or.inr h1
      · exact Or.inl (by simpa using h1)
    · rw [hidx] at ht
      rcases List.mem_or_eq_of_mem_set ht with h1 | h1
      · exact Or.inr h1
      · exact Or.inl h1
  refine ⟨?_, ?_, ?_, ?_, ?_, ?_⟩
  · rw [hgen]; exact hs.genesis_eq
  · rw [hcache, hlook_old g.hash (Ne.symm hhg)]; exact hs.genesis_cached
  · intro p hp
    rw [hcache] at hp
    rcases mem_alInsert _ _ _ _ hp with h1 | h1
    · subst h1; rfl
    · exact hs.keys_eq p h1
  · intro p hp _hpg
    rw [hcache] at hp ⊢
    rcases mem_alInsert _ _ _ _ hp with h1 | h1
    · subst h1
      refine ⟨q, ?_, rfl, rfl⟩
      simpa [hnewC] using (hlook_old h.prev hph).trans hprev
    · obtain ⟨q', hq', hh', hw'⟩ := hs.height_work p h1 _hpg
      have hne : p.2.header.prev ≠ h.hash := by
        intro he
        rw [he, hget] at hq'
        cases hq'
      exact ⟨q', (hlook_old _ hne).trans hq', hh', hw'⟩
  · rw [htips]
    rcases hidx : s.tips.findIdx? (fun cached => cached.header.hash == h.prev) with _ | idx
    · simp only [hidx]
      simp
    · simp only [hidx]
      intro he
      apply hs.tips_ne
      have hlen := congrArg List.length he
      rw [List.length_set] at hlen
      exact List.length_eq_zero.1 hlen
  · intro t ht
    rw [hcache]
    rcases htip_mem t ht with h1 | h1
    · subst h1
      simpa [hnewC] using hlook_new
    · have hne : t.header.hash ≠ h.hash := by
        intro he
        have := hs.tips_cached t h1
        rw [he, hget] at this
        cases this
      rw [hlook_old _ hne]
      exact hs.tips_cached t h1

theorem stateWF_add_headers (g : BlockHeader) {s : BlockchainState} (hs : List BlockHeader)
    (h : StateWF g s) : StateWF g (add_headers s hs).2 := by
  induction hs generalizing s with
  | nil => simpa [add_headers] using h
  | cons hd tl ih =>
    have h1 : StateWF g (add_header s hd).2 := stateWF_add_header g hd h
    rcases hres : add_header s hd with ⟨r, s'⟩
    have h2 : StateWF g s' := by rw [hres] at h1; exact h1
    match r with
    | .ok (.HeaderAdded c) =>
      have : (add_headers s (hd :: tl)).2 = (add_headers s' tl).2 := by
        simp [add_headers, hres]
      rw [this]; exact ih h2
    | .ok (.HeaderAlreadyExists c) =>
      have : (add_headers s (hd :: tl)).2 = (add_headers s' tl).2 := by
        simp [add_headers, hres]
      rw [this]; exact ih h2
    | .error e =>
      have : (add_headers s (hd :: tl)).2 = s' := by simp [add_headers, hres]
      rw [this]; exact h2

/-- `StateWF` does not mention the block cache. -/
theorem stateWF_block_cache (g : BlockHeader) {s : BlockchainState}
    (bc : List (Hash × Block)) (h : StateWF g s) :
    StateWF g { s with block_cache := bc } :=
  ⟨h.genesis_eq, h.genesis_cached, h.keys_eq, h.height_work, h.tips_ne, h.tips_cached⟩

theorem stateWF_add_block (g : BlockHeader) {s : BlockchainState} (b : Block)
    (h : StateWF g s) : StateWF g (add_block s b).2 := by
  have h1 : StateWF g (add_header s b.header).2 := stateWF_add_header g b.header h
  rcases hres : add_header s b.header with ⟨r, s'⟩
  have h2 : StateWF g s' := by rw [hres] at h1; exact h1
  match r with
  | .ok (.HeaderAdded c) =>
    by_cases hv : is_block_valid s' b
    · have : (add_block s b).2 = { s' with block_cache := alInsert s'.block_cache b.header.hash b } := by
        simp [add_block, hres, hv]
      rw [this]; exact stateWF_block_cache g _ h2
    · have : (add_block s b).2 = s' := by simp [add_block, hres, hv]
      rw [this]; exact h2
  | .ok (.HeaderAlreadyExists c) =>
    by_cases hv : is_block_valid s' b
    · have : (add_block s b).2 = { s' with block_cache := alInsert s'.block_cache b.header.hash b } := by
        simp [add_block, hres, hv]
      rw [this]; exact stateWF_block_cache g _ h2
    · have : (add_block s b).2 = s' := by simp [add_block, hres, hv]
      rw [this]; exact h2
  | .error e =>
    have : (add_block s b).2 = s' := by simp [add_block, hres]
    rw [this]; exact h2

theorem stateWF_prune (g : BlockHeader) {s : BlockchainState} (hashes : List Hash)
    (h : StateWF g s) : StateWF g (prune_old_blocks s hashes) :=
  stateWF_block_cache g _ h

/-- Every reachable state satisfies the well-formedness invariant. -/
theorem reachable_wf {g : BlockHeader} {s : BlockchainState} (h : Reachable g s) :
    StateWF g s := by
  induction h with
  | init =>
    refine ⟨rfl, by simp [BlockchainState.new, alGet], ?_, ?_, by simp [BlockchainState.new], ?_⟩
    · intro p hp
      simp [BlockchainState.new] at hp
      subst hp; rfl
    · intro p hp hpg
      simp [BlockchainState.new] at hp
      exact absurd (by rw [hp]) hpg
    · intro t ht
      simp [BlockchainState.new] at ht
      subst ht
      simp [BlockchainState.new, alGet, mkCachedGenesis]
  | step_add_header h _ ih => exact stateWF_add_header _ _ ih
  | step_add_headers hs _ ih => exact stateWF_add_headers _ _ ih
  | step_add_block b _ ih => exact stateWF_add_block _ _ ih
  | step_prune hashes _ ih => exact stateWF_prune _ _ ih

/-! ### Specification of the active-tip scan -/

/-- Behaviour of the `get_active_chain_tip` scan loop: either no element beats
the running maximum (result is the incoming `max_index`), or the result points
at the first element achieving the maximum work of the suffix. -/
theorem activeTipFold_spec (rest : List CachedHeader) :
    ∀ (i mi mw : Nat),
      (activeTipFold rest i mi mw = mi ∧ ∀ k u, rest.get? k = some u → u.work ≤ mw) ∨
      (∃ k u, rest.get? k = some u ∧ activeTipFold rest i mi mw = i + k ∧ mw < u.work ∧
        (∀ k' u', rest.get? k' = some u' → u'.work ≤ u.work) ∧
        (∀ k' u', k' < k → rest.get? k' = some u' → u'.work < u.work)) := by
  induction rest with
  | nil =>
    intro i mi mw
    left
    refine ⟨rfl, ?_⟩
    intro k u hk
    simp at hk
  | cons c rest ih =>
    intro i mi mw
    by_cases hc : mw < c.work
    · rcases ih (i + 1) i c.work with ⟨heq, hall⟩ | ⟨k, u, hget, heq, hlt, hmax, hstrict⟩
      · right
        refine ⟨0, c, rfl, ?_, hc, ?_, ?_⟩
        · simp [activeTipFold, hc, heq]
        · intro k' u' hk'
          match k' with
          | 0 => cases hk'; exact le_refl _
          | Nat.succ k'' => exact hall k'' u' hk'
        · intro k' u' hk'
          omega
      · right
        refine ⟨k + 1, u, hget, ?_, lt_trans hc hlt, ?_, ?_⟩
        · simp only [activeTipFold, if_pos hc, heq]
          omega
        · intro k' u' hk'
          match k' with
          | 0 => cases hk'; exact le_of_lt hlt
          | Nat.succ k'' => exact hmax k'' u' hk'
        · intro k' u' hk'lt hk'
          match k' with
          | 0 => cases hk'; exact hlt
          | Nat.succ k'' => exact hstrict k'' u' (by omega) hk'
    · rcases ih (i + 1) mi mw with ⟨heq, hall⟩ | ⟨k, u, hget, heq, hlt, hmax, hstrict⟩
      · left
        refine ⟨by simp [activeTipFold, hc, heq], ?_⟩
        intro k' u' hk'
        match k' with
        | 0 => cases hk'; omega
        | Nat.succ k'' => exact hall k'' u' hk'
      · right
        refine ⟨k + 1, u, hget, ?_, hlt, ?_, ?_⟩
        · simp only [activeTipFold, if_neg hc, heq]
          omega
        · intro k' u' hk'
          match k' with
          | 0 => cases hk'; omega
          | Nat.succ k'' => exact hmax k'' u' hk'
        · intro k' u' hk'lt hk'
          match k' with
          | 0 => cases hk'; omega
          | Nat.succ k'' => exact hstrict k'' u' (by omega) hk'

/-- For a non-empty tips list, `get_active_chain_tip` returns the first tip of
maximal cumulative work. -/
theorem get_active_chain_tip_spec (s : BlockchainState) (hne : s.tips ≠ []) :
    ∃ i t, get_active_chain_tip s = some t ∧ s.tips.get? i = some t ∧
      (∀ u ∈ s.tips, u.work ≤ t.work) ∧
      (∀ j u, j < i → s.tips.get? j = some u → u.work < t.work) := by
  rcases activeTipFold_spec s.tips 0 0 0 with ⟨heq, hall⟩ | ⟨k, u, hget, heq, _hlt, hmax, hstrict⟩
  · rcases hts0 : s.tips.get? 0 with _ | t0
    · rw [List.get?_eq_none] at hts0
      exact absurd (List.length_eq_zero.1 (Nat.le_zero.1 hts0)) hne
    · refine ⟨0, t0, ?_, hts0, ?_, ?_⟩
      · unfold get_active_chain_tip
        rw [heq]
        exact hts0
      · intro v hv
        obtain ⟨j, hj⟩ := List.mem_iff_getElem?.1 hv
        have hj' : s.tips.get? j = some v := by rw [List.get?_eq_getElem?]; exact hj
        have h1 : v.work ≤ 0 := hall j v hj'
        have h2 : t0.work ≤ 0 := hall 0 t0 hts0
        omega
      · intro j v hj _
        omega
  · refine ⟨k, u, ?_, hget, ?_, ?_⟩
    · unfold get_active_chain_tip
      rw [heq]
      simpa using hget
    · intro v hv
      obtain ⟨n, hn⟩ := List.mem_iff_getElem?.1 hv
      exact hmax n v (by rw [List.get?_eq_getElem?]; exact hn)
    · intro j v hj hjv
      exact hstrict j v hj hjv

/-! ### Claim theorems for the chain store -/

/-- C1: in every reachable state of the chain store, every cached non-genesis
header has its parent cached, with `height = parent.height + 1` and
`work = parent.work + own_work`; reachability is closed under `add_header`,
`add_headers`, `add_block`, and `prune_old_blocks`, so all mutating
operations preserve this for all chains in the tree. -/
theorem height_work_invariant (g : BlockHeader) (s : BlockchainState)
    (h : Reachable g s) :
    ∀ p ∈ s.header_cache, p.1 ≠ g.hash →
      ∃ q, alGet s.header_cache p.2.header.prev = some q ∧
        p.2.height = q.height + 1 ∧ p.2.work = q.work + p.2.header.work :=
  (reachable_wf h).height_work

def g0 : BlockHeader := { hash := 1, prev := 0, work := 1 }

def h1 : BlockHeader := { hash := 2, prev := 1, work := 1 }

def h2 : BlockHeader := { hash := 3, prev := 2, work := 2 }

/-- Concrete reachable state: genesis plus two headers. -/
def sW : BlockchainState :=
  (add_header (add_header (BlockchainState.new g0) h1).2 h2).2

theorem sW_reachable : Reachable g0 sW :=
  Reachable.step_add_header h2 (Reachable.step_add_header h1 Reachable.init)

theorem height_work_invariant_witness :
    (2, ({ header := h1, height := 1, work := 2 } : CachedHeader)) ∈ sW.header_cache ∧
    ∃ q, alGet sW.header_cache h1.prev = some q ∧
      (1 : Nat) = q.height + 1 ∧ (2 : Nat) = q.work + h1.work :=
  ⟨by decide,
   height_work_invariant g0 sW sW_reachable
     (2, { header := h1, height := 1, work := 2 }) (by decide) (by decide)⟩

/-- C2: in every reachable state, `get_active_chain_tip` returns a tip of the
tips list whose cumulative work is maximal among all tracked tips, and on ties
the tip at the earliest position (first-seen order) is returned: every tip at
a strictly earlier position has strictly smaller work. -/
theorem active_tip_max_work (g : BlockHeader) (s : BlockchainState)
    (h : Reachable g s) :
    ∃ i t, get_active_chain_tip s = some t ∧ s.tips.get? i = some t ∧
      (∀ u ∈ s.tips, u.work ≤ t.work) ∧
      (∀ j u, j < i → s.tips.get? j = some u → u.work < t.work) :=
  get_active_chain_tip_spec s (reachable_wf h).tips_ne

theorem active_tip_max_work_witness :
    ∃ i t, get_active_chain_tip sW = some t ∧ sW.tips.get? i = some t ∧
      (∀ u ∈ sW.tips, u.work ≤ t.work) ∧
      (∀ j u, j < i → sW.tips.get? j = some u → u.work < t.work) :=
  active_tip_max_work g0 sW sW_reachable

/-- C10: in every reachable `BlockchainState` the tips list is non-empty and
the genesis header is cached; consequently `get_active_chain_tip` is total
(the index into `tips` is in bounds, i.e. the result is `some`), and the
returned tip — the start of `locator_hashes`' walk — is itself cached. -/
theorem tips_nonempty_genesis_cached (g : BlockHeader) (s : BlockchainState)
    (h : Reachable g s) :
    s.tips ≠ [] ∧ alGet s.header_cache g.hash = some (mkCachedGenesis g) ∧
      ∃ t, get_active_chain_tip s = some t ∧ alGet s.header_cache t.header.hash = some t := by
  have wf := reachable_wf h
  obtain ⟨i, t, hat, hget, _, _⟩ := get_active_chain_tip_spec s wf.tips_ne
  exact ⟨wf.tips_ne, wf.genesis_cached,
    t, hat, wf.tips_cached t (List.get?_mem hget)⟩

theorem tips_nonempty_genesis_cached_witness :
    sW.tips ≠ [] ∧ alGet sW.header_cache g0.hash = some (mkCachedGenesis g0) ∧
      ∃ t, get_active_chain_tip sW = some t ∧ alGet sW.header_cache t.header.hash = some t :=
  tips_nonempty_genesis_cached g0 sW sW_reachable

/-- C9: for a header that is not yet cached and whose parent is cached, the
first `add_header` call returns `HeaderAdded` and a second call with the same
header returns `HeaderAlreadyExists` with the state — header cache, children
map and tips — completely unchanged. -/
theorem add_header_idempotent (s : BlockchainState) (h : BlockHeader)
    (hnew : alGet s.header_cache h.hash = none)
    (hprev : (alGet s.header_cache h.prev).isSome) :
    ∃ c s', add_header s h = (.ok (.HeaderAdded c), s') ∧
      add_header s' h = (.ok (.HeaderAlreadyExists c), s') := by
  rcases hp : alGet s.header_cache h.prev with _ | q
  · rw [hp] at hprev
    cases hprev
  · set c : CachedHeader := { header := h, height := q.height + 1, work := q.work + h.work }
      with hc
    refine ⟨c, (add_header s h).2, ?_, ?_⟩
    · have hfst : (add_header s h).1 = Except.ok (AddHeaderResult.HeaderAdded c) := by
        simp [add_header, hnew, hp, is_header_valid, hc]
      rw [← hfst]
    · have hlook : alGet (add_header s h).2.header_cache h.hash = some c := by
        have hc2 : (add_header s h).2.header_cache = alInsert s.header_cache h.hash c := by
          simp [add_header, hnew, hp, is_header_valid, hc]
        rw [hc2]
        exact alGet_insert_self _ _ _
      set s₂ := (add_header s h).2 with hs₂
      unfold add_header
      rw [hlook]

theorem add_header_idempotent_witness :
    alGet (BlockchainState.new g0).header_cache h1.hash = none ∧
      ∃ c s', add_header (BlockchainState.new g0) h1 = (.ok (.HeaderAdded c), s') ∧
        add_header s' h1 = (.ok (.HeaderAlreadyExists c), s') :=
  ⟨by decide, add_header_idempotent (BlockchainState.new g0) h1 (by decide) (by decide)⟩

/-! ### Locator hashes (C3) -/

/-- The value of the `step` variable of `locator_hashes` at the start of outer
iteration `k`: 1 for the first eight iterations, then doubling (with u32
saturation, as `saturating_mul(2)`) once `k ≥ 8`. -/
def stepSeq : Nat → Nat
  | 0 => 1
  | k + 1 => if 7 ≤ k then Nat.min (stepSeq k * 2) 4294967295 else stepSeq k

/-- Total number of predecessor steps walked before outer iteration `i + k`,
starting the count at iteration `i`. -/
def relOffset (i : Nat) : Nat → Nat
  | 0 => 0
  | k + 1 => stepSeq i + relOffset (i + 1) k

/-- Depth below the active tip of the `k`-th locator entry. -/
def locOffset : Nat → Nat := relOffset 0

theorem backWalk_add (cache : List (Hash × CachedHeader)) (a b : Nat) (cur : CachedHeader) :
    backWalk cache (a + b) cur = (backWalk cache a cur).bind (fun c => backWalk cache b c) := by
  induction a generalizing cur with
  | zero => simp [backWalk]
  | succ a ih =>
    rw [Nat.succ_add]
    rcases hp : alGet cache cur.header.prev with _ | p
    · simp [backWalk, hp]
    · simp only [backWalk, hp]
      exact ih p

theorem locatorPushes_length (cache : List (Hash × CachedHeader)) :
    ∀ (fuel i : Nat) (cur : CachedHeader) (step : Nat),
      (locatorPushes cache fuel i cur step).length ≤ fuel := by
  intro fuel
  induction fuel with
  | zero => intro i cur step; simp [locatorPushes]
  | succ f ih =>
    intro i cur step
    rcases hw : backWalk cache step cur with _ | nxt
    · simp [locatorPushes, hw]
    · simp only [locatorPushes, hw, List.length_cons]
      exact Nat.succ_le_succ (ih _ _ _)

theorem locatorPushes_head (cache : List (Hash × CachedHeader)) (fuel i : Nat)
    (cur : CachedHeader) (step : Nat) (hfuel : 0 < fuel) :
    (locatorPushes cache fuel i cur step).head? = some cur.header.hash := by
  match fuel, hfuel with
  | f + 1, _ =>
    rcases hw : backWalk cache step cur with _ | nxt
    · simp [locatorPushes, hw]
    · simp [locatorPushes, hw]

/-- The `k`-th pushed locator hash is the hash of the `locOffset k`-th
predecessor of the starting header, whenever that walk stays on the cache. -/
theorem locatorPushes_get (cache : List (Hash × CachedHeader)) :
    ∀ (k fuel i : Nat) (cur : CachedHeader), k < fuel →
      ∀ c, backWalk cache (relOffset i k) cur = some c →
        (locatorPushes cache fuel i cur (stepSeq i)).get? k = some c.header.hash := by
  intro k
  induction k with
  | zero =>
    intro fuel i cur hk c hc
    match fuel, hk with
    | f + 1, _ =>
      simp only [relOffset, backWalk] at hc
      cases hc
      rcases hw : backWalk cache (stepSeq i) cur with _ | nxt
      · simp [locatorPushes, hw]
      · simp [locatorPushes, hw]
  | succ k ih =>
    intro fuel i cur hk c hc
    match fuel, hk with
    | f + 1, hk =>
      simp only [relOffset] at hc
      rw [backWalk_add] at hc
      obtain ⟨mid, hmid, hrest⟩ := Option.bind_eq_some.1 hc
      have hstep : (if 7 ≤ i then Nat.min (stepSeq i * 2) 4294967295 else stepSeq i) =
          stepSeq (i + 1) := by
        simp [stepSeq]
      simp only [locatorPushes, hmid, hstep, List.get?_cons_succ]
      exact ih f (i + 1) mid (Nat.lt_of_succ_lt_succ hk) c hrest

theorem appended_genesis_getLast (l : List Hash) (gh : Hash) :
    (if l.getLast? = some gh then l else l ++ [gh]).getLast? = some gh := by
  by_cases hl : l.getLast? = some gh
  · rw [if_pos hl]; exact hl
  · rw [if_neg hl]; exact List.getLast?_concat l

theorem lt_length_of_get?_eq_some {α : Type} {l : List α} {n : Nat} {a : α}
    (h : l.get? n = some a) : n < l.length := by
  by_contra hn
  rw [List.get?_eq_none.2 (Nat.le_of_not_lt hn)] at h
  cases h

/-- C3: for every reachable chain-store state, `locator_hashes` is defined (the
walk starts from the cached active tip), returns at most 23 entries whose first
entry is the active tip's hash, its `k`-th entry (k < 22) is the
`locOffset k`-th ancestor of the tip — ancestors at depths 0,1,…,8 then
exponentially spaced with the step doubling — and its final element is the
genesis hash (in particular when genesis was already the most recently emitted
element).  The function is a structurally terminating definition, mirroring the
bounded 22-iteration loop of the source. -/
theorem locator_hashes_spec (g : BlockHeader) (s : BlockchainState) (h : Reachable g s) :
    ∃ tip l, get_active_chain_tip s = some tip ∧ locator_hashes s = some l ∧
      l.length ≤ 23 ∧ l.head? = some tip.header.hash ∧ l.getLast? = some g.hash ∧
      ∀ k, k < 22 → ∀ c, backWalk s.header_cache (locOffset k) tip = some c →
        l.get? k = some c.header.hash := by
  have wf := reachable_wf h
  obtain ⟨i, tip, hat, _hget, _, _⟩ := get_active_chain_tip_spec s wf.tips_ne
  have hgh : s.cached_genesis.header.hash = g.hash := by rw [wf.genesis_eq]; rfl
  set pushed := locatorPushes s.header_cache 22 0 tip 1 with hpushed
  set l := if pushed.getLast? = some (s.cached_genesis.header.hash) then pushed
    else pushed ++ [s.cached_genesis.header.hash] with hl
  have hloc : locator_hashes s = some l := by
    rw [locator_hashes, hat]
    rfl
  have hplen : pushed.length ≤ 22 := locatorPushes_length s.header_cache 22 0 tip 1
  have hlen : l.length ≤ 23 := by
    rw [hl]
    by_cases hc : pushed.getLast? = some (s.cached_genesis.header.hash)
    · rw [if_pos hc]; omega
    · rw [if_neg hc]; simp; omega
  have hphead : pushed.head? = some tip.header.hash :=
    locatorPushes_head s.header_cache 22 0 tip 1 (by omega)
  have hhead : l.head? = some tip.header.hash := by
    rw [hl]
    by_cases hc : pushed.getLast? = some (s.cached_genesis.header.hash)
    · rw [if_pos hc]; exact hphead
    · rw [if_neg hc, List.head?_append, hphead]; rfl
  have hlast : l.getLast? = some g.hash := by
    rw [hl, ← hgh]
    exact appended_genesis_getLast pushed (s.cached_genesis.header.hash)
  refine ⟨tip, l, hat, hloc, hlen, hhead, hlast, ?_⟩
  intro k hk c hc
  have hp : pushed.get? k = some c.header.hash := by
    rw [hpushed]
    have h1 : stepSeq 0 = 1 := rfl
    rw [← h1]
    exact locatorPushes_get s.header_cache k 22 0 tip hk c hc
  rw [hl]
  by_cases hcg : pushed.getLast? = some (s.cached_genesis.header.hash)
  · rw [if_pos hcg]; exact hp
  · rw [if_neg hcg, List.get?_eq_getElem?,
      List.getElem?_append_left (lt_length_of_get?_eq_some hp), ← List.get?_eq_getElem?]
    exact hp

theorem locator_hashes_spec_witness :
    ∃ tip l, get_active_chain_tip sW = some tip ∧ locator_hashes sW = some l ∧
      l.length ≤ 23 ∧ l.head? = some tip.header.hash ∧ l.getLast? = some g0.hash ∧
      ∀ k, k < 22 → ∀ c, backWalk sW.header_cache (locOffset k) tip = some c →
        l.get? k = some c.header.hash :=
  locator_hashes_spec g0 sW sW_reachable

/-! ### BlockchainManager (blockchainmanager.rs) -/

def GETDATA_REQUEST_TIMEOUT_SECS : Nat := 30

def MAX_HEADERS_SIZE : Nat := 2000

def MAX_UNSOLICITED_HEADERS : Nat := 20

def INV_PER_GET_DATA_REQUEST : Nat := 8

/-- `bitcoin::network::message::MAX_INV_SIZE`. -/
def MAX_INV_SIZE : Nat := 50000

/-- u32 `saturating_add`. -/
def satAdd32 (a b : Nat) : Nat := Nat.min (a + b) 4294967295

inductive OnTimeout where
  | Disconnect
  | Ignore
deriving DecidableEq, Repr

/-- `bitcoin` inventory items; only `Block` items are inspected by the
manager, all other variants are bundled as `other`. -/
inductive Inventory where
  | block (h : Hash)
  | other (tag : Nat)
deriving DecidableEq, Repr

/-- Block locators: starting hashes and a stop hash. -/
abbrev Locators := List Hash × Hash

/-- The outbound `NetworkMessage`s produced by the manager. -/
inductive NetworkMessage where
  | GetHeaders (locator_hashes : List Hash) (stop_hash : Hash)
  | GetData (inventory : List Inventory)
deriving DecidableEq, Repr

structure Command where
  address : Option Addr
  message : NetworkMessage
deriving DecidableEq, Repr

inductive ReceivedHeadersMessageError where
  | UnknownPeer
  | ReceivedTooManyHeaders
  | ReceivedTooManyUnsolicitedHeaders
  | ReceivedInvalidHeader
deriving DecidableEq, Repr

inductive ReceivedInvMessageError where
  | UnknownPeer
  | TooMuchInventory
deriving DecidableEq, Repr

/-- `PeerInfo` from blockchainmanager.rs. -/
structure PeerInfo where
  socket : Addr
  height : BlockHeight
  tip : Hash
  last_asked : Option Locators
  sent_at : Option Nat
  on_timeout : OnTimeout
  num_of_outstanding_get_data_requests : Nat
deriving DecidableEq, Repr

/-- `GetDataRequestInfo` from blockchainmanager.rs. -/
structure GetDataRequestInfo where
  socket : Addr
  inventory : Inventory
  sent_at : Nat
  on_timeout : OnTimeout
deriving DecidableEq, Repr

/-- `BlockchainManager` from blockchainmanager.rs.  The `StdRng` field is not
part of the state: randomized sampling is passed explicitly to `sync_blocks`,
and the logger is dropped. -/
structure BlockchainManager where
  blockchain : BlockchainState
  peer_info : List (Addr × PeerInfo)
  get_data_request_info : List (Inventory × GetDataRequestInfo)
  inventory_to_be_synced : List Inventory
  outgoing_command_queue : List Command
deriving DecidableEq, Repr

/-- `BlockchainManager::send_getheaders`: push a `GetHeaders` command and
record the request on the peer (no-op for untracked peers). -/
def send_getheaders (m : BlockchainManager) (addr : Addr) (locators : Locators)
    (on_timeout : OnTimeout) (now : Nat) : BlockchainManager :=
  if (alGet m.peer_info addr).isSome then
    { m with
      outgoing_command_queue := m.outgoing_command_queue ++
        [{ address := some addr, message := .GetHeaders locators.1 locators.2 }]
      peer_info := alUpdate m.peer_info addr (fun p =>
        { p with last_asked := some locators, sent_at := some now, on_timeout := on_timeout }) }
  else m

/-- Net effect on `peer.tip` of the `received_inv_message` loop: the hash of
the last `Block` item of the inventory list (the loop assigns `peer.tip` for
every `Block` item, so the final value is the last one). -/
def lastBlockHash (inventory : List Inventory) : Option Hash :=
  inventory.foldl (fun acc inv =>
    match inv with
    | .block h => some h
    | .other _ => acc) none

/-- Final value of the `last_block` variable of `received_inv_message`: the
last `Block` item whose hash is not yet in the header cache. -/
def lastUnknownBlock (chain : BlockchainState) (inventory : List Inventory) : Option Hash :=
  inventory.foldl (fun acc inv =>
    match inv with
    | .block h => if is_block_hash_known chain h then acc else some h
    | .other _ => acc) none

/-- `BlockchainManager::received_inv_message`.  The single source loop both
updates `peer.tip` and tracks `last_block`; it is split into the two
equivalent folds above. -/
def received_inv_message (m : BlockchainManager) (addr : Addr)
    (inventory : List Inventory) (now : Nat) :
    Except ReceivedInvMessageError Unit × BlockchainManager :=
  if MAX_INV_SIZE < inventory.length then (.error .TooMuchInventory, m)
  else
    match alGet m.peer_info addr with
    | none => (.error .UnknownPeer, m)
    | some _peer =>
      let m₁ :=
        match lastBlockHash inventory with
        | some h => { m with peer_info := alUpdate m.peer_info addr (fun p => { p with tip := h }) }
        | none => m
      match lastUnknownBlock m.blockchain inventory with
      | some stop_hash =>
        (.ok (), send_getheaders m₁ addr ((locator_hashes m₁.blockchain).getD [], stop_hash)
          .Ignore now)
      | none => (.ok (), m₁)

/-- The `maybe_last_header` computation of `received_headers_message`: the last
newly added header, or else the cached header of the batch's last hash. -/
def maybe_last_header (chain : BlockchainState) (headers : List BlockHeader) :
    Option CachedHeader :=
  match (add_headers chain headers).1.1.getLast? with
  | some c => some c
  | none =>
    match headers.getLast? with
    | some last => alGet (add_headers chain headers).2.header_cache last.hash
    | none => none

/-- `BlockchainManager::received_headers_message`. -/
def received_headers_message (m : BlockchainManager) (addr : Addr)
    (headers : List BlockHeader) (now : Nat) :
    Except ReceivedHeadersMessageError Unit × BlockchainManager :=
  match alGet m.peer_info addr with
  | none => (.error .UnknownPeer, m)
  | some peer =>
    if MAX_UNSOLICITED_HEADERS < headers.length ∧ peer.last_asked = none then
      (.error .ReceivedTooManyUnsolicitedHeaders, m)
    else if MAX_HEADERS_SIZE < headers.length then (.error .ReceivedTooManyHeaders, m)
    else
      match headers.getLast? with
      | none => (.ok (), m)
      | some _last_header =>
        let chain' := (add_headers m.blockchain headers).2
        let maybe_err := (add_headers m.blockchain headers).1.2
        let mlh := maybe_last_header m.blockchain headers
        let m₁ := { m with blockchain := chain' }
        let m₂ :=
          match mlh with
          | some last =>
            if peer.height < last.height then
              { m₁ with peer_info := alUpdate m₁.peer_info addr (fun p =>
                  { p with tip := last.header.hash, height := last.height }) }
            else m₁
          | none => m₁
        match maybe_err with
        | some (.InvalidHeader _) => (.error .ReceivedInvalidHeader, m₂)
        | some (.PrevHeaderNotCached stop_hash) =>
          (.ok (), send_getheaders m₂ addr ((locator_hashes chain').getD [], stop_hash)
            .Ignore now)
        | none =>
          match mlh with
          | some last =>
            if headers.length < MAX_HEADERS_SIZE then
              (.ok (), { m₂ with peer_info := alUpdate m₂.peer_info addr (fun p =>
                { p with last_asked := none }) })
            else
              (.ok (), send_getheaders m₂ addr ([last.header.hash], nullHash) .Ignore now)
          | none =>
            (.ok (), { m₂ with peer_info := alUpdate m₂.peer_info addr (fun p =>
              { p with last_asked := none }) })

/-- `BlockchainManager::add_peer`: track the peer seeded at genesis and
immediately request headers from genesis with "disconnect on timeout". -/
def add_peer (m : BlockchainManager) (addr : Addr) (now : Nat) : BlockchainManager :=
  if (alGet m.peer_info addr).isSome then m
  else
    let initial_hash := m.blockchain.cached_genesis.header.hash
    let fresh : PeerInfo :=
      { socket := addr
        height := m.blockchain.cached_genesis.height
        tip := initial_hash
        last_asked := none
        sent_at := none
        on_timeout := .Ignore
        num_of_outstanding_get_data_requests := 0 }
    let m' := { m with peer_info := alInsert m.peer_info addr fresh }
    send_getheaders m' addr ([initial_hash], nullHash) .Disconnect now

/-- `BlockchainManager::remove_peer`: drop the peer and all `GetData` requests
addressed to it (removal is by the request's `socket` field, via `retain`). -/
def remove_peer (m : BlockchainManager) (addr : Addr) : BlockchainManager :=
  { m with
    peer_info := alRemove m.peer_info addr
    get_data_request_info :=
      m.get_data_request_info.filter (fun p => decide ¬(p.2.socket = addr)) }

/-- `BlockchainManager::filter_expired_get_data_requests`: decrement the
owning (still-tracked) peer's outstanding counter for every expired request,
then remove the collected inventory keys from the request map. -/
def filter_expired_get_data_requests (m : BlockchainManager) (now : Nat) : BlockchainManager :=
  let expired := m.get_data_request_info.filter
    (fun p => decide (p.2.sent_at + GETDATA_REQUEST_TIMEOUT_SECS < now))
  let peer_info' := expired.foldl (fun ps p =>
    alUpdate ps p.2.socket (fun peer =>
      { peer with num_of_outstanding_get_data_requests :=
          peer.num_of_outstanding_get_data_requests - 1 })) m.peer_info
  let requests_to_remove := expired.map (fun p => p.2.inventory)
  let reqs' := requests_to_remove.foldl (fun mp k => alRemove mp k) m.get_data_request_info
  { m with peer_info := peer_info', get_data_request_info := reqs' }

/-- Stable insertion keeping ascending `num_of_outstanding_get_data_requests`
order; models the stable `sort_by` over the peer list. -/
def insertByOutstanding (p : Addr × PeerInfo) :
    List (Addr × PeerInfo) → List (Addr × PeerInfo)
  | [] => [p]
  | q :: rest =>
    if q.2.num_of_outstanding_get_data_requests ≤ p.2.num_of_outstanding_get_data_requests then
      q :: insertByOutstanding p rest
    else p :: q :: rest

def sortPeersByOutstanding (peers : List (Addr × PeerInfo)) : List (Addr × PeerInfo) :=
  peers.foldr insertByOutstanding []

/-- Loop state of the dispatch pass of `sync_blocks`. -/
structure DispatchSt where
  peers : List (Addr × PeerInfo)
  pending : List (Inventory × GetDataRequestInfo)
  cands : List Inventory
  queue : List Command
deriving DecidableEq, Repr

/-- The per-peer dispatch loop of `sync_blocks`: visit peers least-loaded
first, sample up to `INV_PER_GET_DATA_REQUEST − outstanding` candidates, queue
one `GetData` per peer, record a `PendingFetch` per item and drop the item
from the candidate set; `break` when the sample comes back empty. -/
def dispatchLoop (sample : List Inventory → Nat → List Inventory) (now : Nat) :
    List (Addr × PeerInfo) → DispatchSt → DispatchSt
  | [], st => st
  | (addr, peer) :: rest, st =>
    let num_requests_to_be_sent :=
      INV_PER_GET_DATA_REQUEST - peer.num_of_outstanding_get_data_requests
    let selected_inventory := sample st.cands num_requests_to_be_sent
    if selected_inventory = [] then st
    else
      let st₁ : DispatchSt :=
        { st with
          queue := st.queue ++ [{ address := some addr, message := .GetData selected_inventory }]
          peers := alUpdate st.peers addr (fun p =>
            { p with num_of_outstanding_get_data_requests :=
                satAdd32 p.num_of_outstanding_get_data_requests selected_inventory.length }) }
      let st₂ := selected_inventory.foldl (fun acc inv =>
        { acc with
          pending := alInsert acc.pending inv
            { socket := addr, inventory := inv, sent_at := now, on_timeout := .Ignore }
          cands := acc.cands.filter (fun c => decide ¬(c = inv)) }) st₁
      dispatchLoop sample now rest st₂

/-- `BlockchainManager::sync_blocks`.  Note the early return when the
inventory-to-be-synced set is empty — in that case expired `GetData` requests
are *not* filtered out. -/
def sync_blocks (m : BlockchainManager) (now : Nat)
    (sample : List Inventory → Nat → List Inventory) : BlockchainManager :=
  if m.inventory_to_be_synced = [] then m
  else
    let m₁ := filter_expired_get_data_requests m now
    let inventory_to_be_synced := m₁.inventory_to_be_synced.filter
      (fun inv => decide (alGet m₁.get_data_request_info inv = none))
    let sorted := sortPeersByOutstanding m₁.peer_info
    let st := dispatchLoop sample now sorted
      { peers := m₁.peer_info
        pending := m₁.get_data_request_info
        cands := inventory_to_be_synced
        queue := m₁.outgoing_command_queue }
    { m₁ with
      peer_info := st.peers
      get_data_request_info := st.pending
      inventory_to_be_synced := st.cands
      outgoing_command_queue := st.queue }

/-- `BlockchainManager::tick`: reconcile the peer set against the transport's
connected addresses, run `sync_blocks`, then flush and clear the outgoing
command queue (the flushed commands are returned). -/
def tick (m : BlockchainManager) (conns : List Addr) (now : Nat)
    (sample : List Inventory → Nat → List Inventory) :
    BlockchainManager × List Command :=
  let to_remove := (m.peer_info.map Prod.fst).filter (fun a => decide ¬(a ∈ conns))
  let m₁ := to_remove.foldl (fun acc a => remove_peer acc a) m
  let m₂ := conns.foldl (fun acc a =>
    if (alGet acc.peer_info a).isSome then acc else add_peer acc a now) m₁
  let m₃ := sync_blocks m₂ now sample
  ({ m₃ with outgoing_command_queue := [] }, m₃.outgoing_command_queue)

/-! ### Unsolicited-header rejection (C6) -/

/-- `add_header` can never fail with `InvalidHeader`: the validity predicate is
the stub returning `true`. -/
theorem add_header_no_invalid (s : BlockchainState) (h : BlockHeader) (x : Hash)
    (hc : (add_header s h).1 = .error (.InvalidHeader x)) : False := by
  rcases hget : alGet s.header_cache h.hash with _ | c
  · rcases hprev : alGet s.header_cache h.prev with _ | q
    · simp [add_header, hget, hprev, is_header_valid] at hc
    · simp [add_header, hget, hprev, is_header_valid] at hc
  · simp [add_header, hget] at hc

theorem add_headers_no_invalid (hs : List BlockHeader) :
    ∀ (s : BlockchainState) (x : Hash),
      (add_headers s hs).1.2 = some (.InvalidHeader x) → False := by
  induction hs with
  | nil => intro s x hc; simp [add_headers] at hc
  | cons h rest ih =>
    intro s x hc
    rcases hres : add_header s h with ⟨r, s'⟩
    match r with
    | .ok (.HeaderAdded c) =>
      have h2 : (add_headers s (h :: rest)).1.2 = (add_headers s' rest).1.2 := by
        simp [add_headers, hres]
      rw [h2] at hc
      exact ih s' x hc
    | .ok (.HeaderAlreadyExists c) =>
      have h2 : (add_headers s (h :: rest)).1.2 = (add_headers s' rest).1.2 := by
        simp [add_headers, hres]
      rw [h2] at hc
      exact ih s' x hc
    | .error e =>
      have h2 : (add_headers s (h :: rest)).1.2 = some e := by simp [add_headers, hres]
      rw [h2] at hc
      injection hc with hce
      subst hce
      exact add_header_no_invalid s h x (by rw [hres])

/-- C6: for a tracked peer with no outstanding getheaders request
(`last_asked = none`), `received_headers_message` rejects every batch of more
than 20 headers with `ReceivedTooManyUnsolicitedHeaders` (leaving the state
untouched), whereas a batch of exactly 20 headers passes this check and is
processed to completion (the call returns `Ok` and the batch is forwarded to
`add_headers`). -/
theorem unsolicited_headers_check (m : BlockchainManager) (addr : Addr) (pi : PeerInfo)
    (now : Nat) (hp : alGet m.peer_info addr = some pi) (hnone : pi.last_asked = none) :
    (∀ headers : List BlockHeader, MAX_UNSOLICITED_HEADERS < headers.length →
      received_headers_message m addr headers now =
        (.error .ReceivedTooManyUnsolicitedHeaders, m)) ∧
    (∀ headers : List BlockHeader, headers.length = MAX_UNSOLICITED_HEADERS →
      (received_headers_message m addr headers now).1 = .ok () ∧
      (received_headers_message m addr headers now).2.blockchain =
        (add_headers m.blockchain headers).2) := by
  constructor
  · intro headers hlen
    have hcond : MAX_UNSOLICITED_HEADERS < headers.length ∧ pi.last_asked = none :=
      ⟨hlen, hnone⟩
    simp [received_headers_message, hp, hcond]
  · intro headers hlen
    have hcond : ¬(MAX_UNSOLICITED_HEADERS < headers.length ∧ pi.last_asked = none) := by
      rw [hlen]
      simp [MAX_UNSOLICITED_HEADERS]
    have hsize : ¬(MAX_HEADERS_SIZE < headers.length) := by
      rw [hlen]
      decide
    have hlt : headers.length < MAX_HEADERS_SIZE := by
      rw [hlen]
      decide
    rcases hgl : headers.getLast? with _ | lastH
    · rw [List.getLast?_eq_none_iff] at hgl
      rw [hgl] at hlen
      simp [MAX_UNSOLICITED_HEADERS] at hlen
    · have hup : ∀ f : PeerInfo → PeerInfo,
          (alGet (alUpdate m.peer_info addr f) addr).isSome = true := by
        intro f
        rw [alGet_update_self, hp]
        rfl
      have hps : (alGet m.peer_info addr).isSome = true := by rw [hp]; rfl
      rcases herr : (add_headers m.blockchain headers).1.2 with _ | e
      · rcases hml : maybe_last_header m.blockchain headers with _ | last
        · constructor
          · simp [received_headers_message, hp, hcond, hsize, hgl, herr, hml]
          · simp [received_headers_message, hp, hcond, hsize, hgl, herr, hml]
        · constructor
          · simp [received_headers_message, hp, hcond, hsize, hgl, herr, hml, hlt]
          · by_cases hpk : pi.height < last.height
            · simp [received_headers_message, hp, hcond, hsize, hgl, herr, hml, hlt, hpk]
            · simp [received_headers_message, hp, hcond, hsize, hgl, herr, hml, hlt, hpk]
      · match e with
        | .InvalidHeader x => exact absurd herr (fun hh => add_headers_no_invalid headers _ x hh)
        | .PrevHeaderNotCached stop =>
          rcases hml : maybe_last_header m.blockchain headers with _ | last
          · constructor
            · simp [received_headers_message, hp, hcond, hsize, hgl, herr, hml, send_getheaders, hup, hps]
            · simp [received_headers_message, hp, hcond, hsize, hgl, herr, hml, send_getheaders, hup, hps]
          · by_cases hpk : pi.height < last.height
            · constructor
              · simp [received_headers_message, hp, hcond, hsize, hgl, herr, hml, hpk,
                  send_getheaders, hup, hps]
              · simp [received_headers_message, hp, hcond, hsize, hgl, herr, hml, hpk,
                  send_getheaders, hup, hps]
            · constructor
              · simp [received_headers_message, hp, hcond, hsize, hgl, herr, hml, hpk,
                  send_getheaders, hup, hps]
              · simp [received_headers_message, hp, hcond, hsize, hgl, herr, hml, hpk,
                  send_getheaders, hup, hps]

/-! ### Continuation / caught-up behaviour of received_headers_message (C7) -/

theorem add_header_already (s : BlockchainState) (h : BlockHeader) (c : CachedHeader)
    (s' : BlockchainState) (he : add_header s h = (.ok (.HeaderAlreadyExists c), s')) :
    s' = s ∧ alGet s.header_cache h.hash = some c := by
  rcases hget : alGet s.header_cache h.hash with _ | c0
  · rcases hprev : alGet s.header_cache h.prev with _ | q
    · simp [add_header, hget, hprev, is_header_valid] at he
    · simp [add_header, hget, hprev, is_header_valid] at he
  · simp [add_header, hget] at he
    exact ⟨he.2.symm, congrArg some he.1⟩

theorem add_header_cache_mono (s : BlockchainState) (h : BlockHeader) (k : Hash)
    (v : CachedHeader) (hk : alGet s.header_cache k = some v) :
    alGet (add_header s h).2.header_cache k = some v := by
  rcases hget : alGet s.header_cache h.hash with _ | c
  · rcases hprev : alGet s.header_cache h.prev with _ | q
    · simpa [add_header, hget, hprev, is_header_valid] using hk
    · have hkh : k ≠ h.hash := by
        intro he
        rw [he, hget] at hk
        cases hk
      have hc2 : (add_header s h).2.header_cache =
          alInsert s.header_cache h.hash
            { header := h, height := q.height + 1, work := q.work + h.work } := by
        simp [add_header, hget, hprev, is_header_valid]
      rw [hc2, alGet_insert_ne _ _ _ _ hkh]
      exact hk
  · simpa [add_header, hget] using hk

theorem add_headers_cache_mono (hs : List BlockHeader) :
    ∀ (s : BlockchainState) (k : Hash) (v : CachedHeader),
      alGet s.header_cache k = some v →
      alGet (add_headers s hs).2.header_cache k = some v := by
  induction hs with
  | nil => intro s k v hk; simpa [add_headers] using hk
  | cons h rest ih =>
    intro s k v hk
    have hk' : alGet (add_header s h).2.header_cache k = some v :=
      add_header_cache_mono s h k v hk
    rcases hres : add_header s h with ⟨r, s'⟩
    have hk'' : alGet s'.header_cache k = some v := by rw [hres] at hk'; exact hk'
    match r with
    | .ok (.HeaderAdded c) =>
      have h2 : (add_headers s (h :: rest)).2 = (add_headers s' rest).2 := by
        simp [add_headers, hres]
      rw [h2]
      exact ih s' k v hk''
    | .ok (.HeaderAlreadyExists c) =>
      have h2 : (add_headers s (h :: rest)).2 = (add_headers s' rest).2 := by
        simp [add_headers, hres]
      rw [h2]
      exact ih s' k v hk''
    | .error e =>
      have h2 : (add_headers s (h :: rest)).2 = s' := by simp [add_headers, hres]
      rw [h2]
      exact hk''

/-- When a non-empty batch is accepted without error, the
`maybe_last_header` computation always produces a header. -/
theorem maybe_last_header_isSome (headers : List BlockHeader) :
    ∀ (s : BlockchainState), headers ≠ [] → (add_headers s headers).1.2 = none →
      (maybe_last_header s headers).isSome := by
  induction headers with
  | nil => intro s hne _; exact absurd rfl hne
  | cons h rest ih =>
    intro s _hne herr
    rcases hres : add_header s h with ⟨r, s'⟩
    match r with
    | .ok (.HeaderAdded c) =>
      have h1 : (add_headers s (h :: rest)).1.1 = c :: (add_headers s' rest).1.1 := by
        simp [add_headers, hres]
      rw [maybe_last_header, h1]
      rcases hgl : (c :: (add_headers s' rest).1.1).getLast? with _ | last
      · rw [List.getLast?_eq_none_iff] at hgl
        cases hgl
      · rfl
    | .ok (.HeaderAlreadyExists c) =>
      obtain ⟨hs', hcached⟩ := add_header_already s h c s' hres
      rw [hs'] at hres
      have h1 : (add_headers s (h :: rest)).1.1 = (add_headers s rest).1.1 := by
        simp [add_headers, hres]
      have h2 : (add_headers s (h :: rest)).2 = (add_headers s rest).2 := by
        simp [add_headers, hres]
      have h3 : (add_headers s (h :: rest)).1.2 = (add_headers s rest).1.2 := by
        simp [add_headers, hres]
      match rest with
      | [] =>
        simp [maybe_last_header, add_headers, hres, hcached]
      | r1 :: rest' =>
        have h5 : maybe_last_header s (h :: r1 :: rest') = maybe_last_header s (r1 :: rest') := by
          rw [maybe_last_header, maybe_last_header, h1, h2]
          rfl
        rw [h5]
        rw [h3] at herr
        exact ih s (by simp) herr
    | .error e =>
      have h2 : (add_headers s (h :: rest)).1.2 = some e := by simp [add_headers, hres]
      rw [h2] at herr
      cases herr

def piW : PeerInfo :=
  { socket := 1, height := 0, tip := 1, last_asked := none, sent_at := none,
    on_timeout := .Ignore, num_of_outstanding_get_data_requests := 0 }

/-- Concrete manager: fresh store seeded with `g0`, one tracked peer at
address 1 with no outstanding request. -/
def mW : BlockchainManager :=
  { blockchain := BlockchainState.new g0
    peer_info := [(1, piW)]
    get_data_request_info := []
    inventory_to_be_synced := []
    outgoing_command_queue := [] }

/-- A linear chain of `n` fresh headers on top of `g0`. -/
def hdrs (n : Nat) : List BlockHeader :=
  (List.range n).map (fun i =>
    { hash := i + 10, prev := if i = 0 then 1 else i + 9, work := 1 })

theorem unsolicited_headers_check_witness :
    received_headers_message mW 1 (hdrs 21) 0 =
      (.error .ReceivedTooManyUnsolicitedHeaders, mW) ∧
    (received_headers_message mW 1 (hdrs 20) 0).1 = .ok () :=
  ⟨(unsolicited_headers_check mW 1 piW 0 (by decide) (by decide)).1 (hdrs 21) (by decide),
   ((unsolicited_headers_check mW 1 piW 0 (by decide) (by decide)).2 (hdrs 20) (by decide)).1⟩

/-- A header whose parent (hash 99) is unknown to `mW`'s store. -/
def hBad : BlockHeader := { hash := 5, prev := 99, work := 1 }

/-- C7 counterexample: a 1-header batch (smaller than the 2000 cap) whose
parent is not cached makes `received_headers_message` return `Ok` — the
`PrevHeaderNotCached` outcome is not an error of the call — yet the peer's
`last_asked` is re-armed with a corrective request instead of being cleared,
refuting "if the batch was smaller than the cap, last_asked is cleared". -/
theorem headers_continuation_counterexample :
    (received_headers_message mW 1 [hBad] 0).1 = .ok () ∧
    [hBad].length < MAX_HEADERS_SIZE ∧
    ((alGet (received_headers_message mW 1 [hBad] 0).2.peer_info 1).map
        PeerInfo.last_asked) = some (some ([g0.hash], hBad.hash)) :=
  ⟨rfl, by decide, by decide⟩

/-- C7 (amended): for a tracked peer, when `received_headers_message` is given
a non-empty batch that passes the size checks and `add_headers` reports no
error, the call returns `Ok`, and: if the *received* batch was exactly the
2000-header cap, a continuation `GetHeaders` with locators = [hash of the last
accepted header] and a null stop hash is queued and recorded in `last_asked`;
if the received batch was smaller than the cap, the peer's `last_asked` is
cleared and no command is queued.  (As frozen, the claim fails when
`add_headers` reports `PrevHeaderNotCached`: the call still returns Ok but
re-arms `last_asked` — see the counterexample.) -/
theorem headers_continuation_amended (m : BlockchainManager) (addr : Addr) (pi : PeerInfo)
    (headers : List BlockHeader) (now : Nat)
    (hp : alGet m.peer_info addr = some pi)
    (hguard : ¬(MAX_UNSOLICITED_HEADERS < headers.length ∧ pi.last_asked = none))
    (hne : headers ≠ [])
    (herr : (add_headers m.blockchain headers).1.2 = none)
    (hsize : headers.length ≤ MAX_HEADERS_SIZE) :
    (received_headers_message m addr headers now).1 = .ok () ∧
    (headers.length = MAX_HEADERS_SIZE →
      ∃ last, maybe_last_header m.blockchain headers = some last ∧
        (received_headers_message m addr headers now).2.outgoing_command_queue =
          m.outgoing_command_queue ++
            [{ address := some addr, message := .GetHeaders [last.header.hash] nullHash }] ∧
        ∃ pi', alGet (received_headers_message m addr headers now).2.peer_info addr = some pi' ∧
          pi'.last_asked = some ([last.header.hash], nullHash)) ∧
    (headers.length < MAX_HEADERS_SIZE →
      (∃ pi', alGet (received_headers_message m addr headers now).2.peer_info addr = some pi' ∧
        pi'.last_asked = none) ∧
      (received_headers_message m addr headers now).2.outgoing_command_queue =
        m.outgoing_command_queue) := by
  have hsize2 : ¬(MAX_HEADERS_SIZE < headers.length) := Nat.not_lt.2 hsize
  rcases hgl : headers.getLast? with _ | lastH
  · rw [List.getLast?_eq_none_iff] at hgl
    exact absurd hgl hne
  · obtain ⟨last, hml⟩ := Option.isSome_iff_exists.1
      (maybe_last_header_isSome headers m.blockchain hne herr)
    have hup : ∀ f : PeerInfo → PeerInfo,
        (alGet (alUpdate m.peer_info addr f) addr).isSome = true := by
      intro f
      rw [alGet_update_self, hp]
      rfl
    have hps : (alGet m.peer_info addr).isSome = true := by rw [hp]; rfl
    refine ⟨?_, ?_, ?_⟩
    · by_cases hlt : headers.length < MAX_HEADERS_SIZE
      · by_cases hpk : pi.height < last.height
        · simp [received_headers_message, hp, hguard, hsize2, hgl, herr, hml, hlt, hpk]
        · simp [received_headers_message, hp, hguard, hsize2, hgl, herr, hml, hlt, hpk]
      · by_cases hpk : pi.height < last.height
        · simp [received_headers_message, hp, hguard, hsize2, hgl, herr, hml, hlt, hpk,
            send_getheaders, hup, hps]
        · simp [received_headers_message, hp, hguard, hsize2, hgl, herr, hml, hlt, hpk,
            send_getheaders, hup, hps]
    · intro hcap
      have hnlt : ¬(headers.length < MAX_HEADERS_SIZE) := by rw [hcap]; exact Nat.lt_irrefl _
      refine ⟨last, hml, ?_, ?_⟩
      · by_cases hpk : pi.height < last.height
        · simp [received_headers_message, hp, hguard, hsize2, hgl, herr, hml, hnlt, hpk,
            send_getheaders, hup, hps]
        · simp [received_headers_message, hp, hguard, hsize2, hgl, herr, hml, hnlt, hpk,
            send_getheaders, hup, hps]
      · by_cases hpk : pi.height < last.height
        · simp only [received_headers_message, hp, hguard, hsize2, hgl, herr, hml, hnlt, hpk,
            send_getheaders, hup, hps]
          simp [received_headers_message, hp, hguard, hsize2, hgl, herr, hml, hnlt, hpk,
            send_getheaders, hup, hps]
          exact ⟨_, by rw [alGet_update_self, alGet_update_self, hp]; rfl, rfl⟩
        · simp [received_headers_message, hp, hguard, hsize2, hgl, herr, hml, hnlt, hpk,
            send_getheaders, hup, hps]
          exact ⟨_, by rw [alGet_update_self, hp]; rfl, rfl⟩
    · intro hlt
      constructor
      · by_cases hpk : pi.height < last.height
        · simp [received_headers_message, hp, hguard, hsize2, hgl, herr, hml, hlt, hpk]
          exact ⟨_, by rw [alGet_update_self, alGet_update_self, hp]; rfl, rfl⟩
        · simp [received_headers_message, hp, hguard, hsize2, hgl, herr, hml, hlt, hpk]
          exact ⟨_, by rw [alGet_update_self, hp]; rfl, rfl⟩
      · by_cases hpk : pi.height < last.height
        · simp [received_headers_message, hp, hguard, hsize2, hgl, herr, hml, hlt, hpk]
        · simp [received_headers_message, hp, hguard, hsize2, hgl, herr, hml, hlt, hpk]

theorem headers_continuation_amended_witness :
    (received_headers_message mW 1 [h1] 0).1 = .ok () ∧
    (∃ pi', alGet (received_headers_message mW 1 [h1] 0).2.peer_info 1 = some pi' ∧
      pi'.last_asked = none) ∧
    (received_headers_message mW 1 [h1] 0).2.outgoing_command_queue =
      mW.outgoing_command_queue := by
  have h := headers_continuation_amended mW 1 piW [h1] 0 (by decide) (by decide)
    (by decide) (by decide) (by decide)
  exact ⟨h.1, (h.2.2 (by decide)).1, (h.2.2 (by decide)).2⟩

theorem alGet_update_of_get {κ α : Type} [DecidableEq κ] {m : List (κ × α)} {k : κ} {v : α}
    (f : α → α) (h : alGet m k = some v) : alGet (alUpdate m k f) k = some (f v) := by
  rw [alGet_update_self, h]
  rfl

/-! ### Inventory messages (C8) -/

def mW8 : BlockchainManager :=
  { blockchain := sW
    peer_info := [(1, piW)]
    get_data_request_info := []
    inventory_to_be_synced := []
    outgoing_command_queue := [] }

/-- C8 counterexample: the inventory `[Block 3, Block 2]` contains the cached
block 3 of height 2 and the cached block 2 of height 1, in that order; the
loop sets the peer's tip to the *last* item (hash 2, height 1), not to the
highest one (hash 3, height 2), refuting "updates the peer's recorded tip to
the highest block item seen". -/
theorem inv_tip_counterexample :
    (received_inv_message mW8 1 [.block 3, .block 2] 0).1 = .ok () ∧
    ((alGet (received_inv_message mW8 1 [.block 3, .block 2] 0).2.peer_info 1).map
        PeerInfo.tip) = some 2 ∧
    (alGet sW.header_cache 2).map CachedHeader.height = some 1 ∧
    (alGet sW.header_cache 3).map CachedHeader.height = some 2 :=
  ⟨rfl, by decide, by decide, by decide⟩

/-- C8 (amended): for a tracked peer and an inventory within the protocol
maximum, `received_inv_message` succeeds, records as the peer's tip the *last*
`Block` item of the list (inventory lists are conventionally height-ascending,
so typically the highest), and — when some `Block` item is unknown to the
store — queues exactly one `GetHeaders` request with the store's current
locator hashes and the *last unknown* item as stop hash, with
ignore-on-timeout policy; with no unknown item no command is queued. -/
theorem inv_message_amended (m : BlockchainManager) (addr : Addr) (pi : PeerInfo)
    (inventory : List Inventory) (now : Nat)
    (hp : alGet m.peer_info addr = some pi)
    (hlen : inventory.length ≤ MAX_INV_SIZE) :
    (received_inv_message m addr inventory now).1 = .ok () ∧
    (∀ h, lastBlockHash inventory = some h →
      ∃ pi', alGet (received_inv_message m addr inventory now).2.peer_info addr = some pi' ∧
        pi'.tip = h) ∧
    (lastBlockHash inventory = none →
      ∃ pi', alGet (received_inv_message m addr inventory now).2.peer_info addr = some pi' ∧
        pi'.tip = pi.tip) ∧
    (∀ stop, lastUnknownBlock m.blockchain inventory = some stop →
      (received_inv_message m addr inventory now).2.outgoing_command_queue =
        m.outgoing_command_queue ++
          [{ address := some addr
             message := .GetHeaders ((locator_hashes m.blockchain).getD []) stop }] ∧
      ∃ pi', alGet (received_inv_message m addr inventory now).2.peer_info addr = some pi' ∧
        pi'.last_asked = some ((locator_hashes m.blockchain).getD [], stop) ∧
        pi'.on_timeout = .Ignore) ∧
    (lastUnknownBlock m.blockchain inventory = none →
      (received_inv_message m addr inventory now).2.outgoing_command_queue =
        m.outgoing_command_queue) := by
  have hlen2 : ¬(MAX_INV_SIZE < inventory.length) := Nat.not_lt.2 hlen
  have hup : ∀ f : PeerInfo → PeerInfo,
      (alGet (alUpdate m.peer_info addr f) addr).isSome = true := by
    intro f
    rw [alGet_update_self, hp]
    rfl
  have hps : (alGet m.peer_info addr).isSome = true := by rw [hp]; rfl
  refine ⟨?_, ?_, ?_, ?_, ?_⟩
  · rcases hlb : lastBlockHash inventory with _ | h
    · rcases hlu : lastUnknownBlock m.blockchain inventory with _ | stop
      · simp [received_inv_message, hp, hlen2, hlb, hlu]
      · simp [received_inv_message, hp, hlen2, hlb, hlu, send_getheaders, hup, hps]
    · rcases hlu : lastUnknownBlock m.blockchain inventory with _ | stop
      · simp [received_inv_message, hp, hlen2, hlb, hlu]
      · simp [received_inv_message, hp, hlen2, hlb, hlu, send_getheaders, hup, hps]
  · intro h hlb
    rcases hlu : lastUnknownBlock m.blockchain inventory with _ | stop
    · simp [received_inv_message, hp, hlen2, hlb, hlu]
      exact ⟨_, alGet_update_of_get _ hp, rfl⟩
    · simp [received_inv_message, hp, hlen2, hlb, hlu, send_getheaders, hup, hps]
      exact ⟨_, alGet_update_of_get _ (alGet_update_of_get _ hp), rfl⟩
  · intro hlb
    rcases hlu : lastUnknownBlock m.blockchain inventory with _ | stop
    · simp [received_inv_message, hp, hlen2, hlb, hlu]
    · simp [received_inv_message, hp, hlen2, hlb, hlu, send_getheaders, hup, hps]
      exact ⟨_, alGet_update_of_get _ hp, rfl⟩
  · intro stop hlu
    rcases hlb : lastBlockHash inventory with _ | h
    · constructor
      · simp [received_inv_message, hp, hlen2, hlb, hlu, send_getheaders, hup, hps]
      · simp [received_inv_message, hp, hlen2, hlb, hlu, send_getheaders, hup, hps]
        exact ⟨_, alGet_update_of_get _ hp, rfl, rfl⟩
    · constructor
      · simp [received_inv_message, hp, hlen2, hlb, hlu, send_getheaders, hup, hps]
      · simp [received_inv_message, hp, hlen2, hlb, hlu, send_getheaders, hup, hps]
        exact ⟨_, alGet_update_of_get _ (alGet_update_of_get _ hp), rfl, rfl⟩
  · intro hlu
    rcases hlb : lastBlockHash inventory with _ | h
    · simp [received_inv_message, hp, hlen2, hlb, hlu]
    · simp [received_inv_message, hp, hlen2, hlb, hlu]

theorem inv_message_amended_witness :
    (received_inv_message mW8 1 [.block 3, .block 2] 0).1 = .ok () ∧
    (∃ pi', alGet (received_inv_message mW8 1 [.block 3, .block 2] 0).2.peer_info 1 = some pi' ∧
      pi'.tip = 2) ∧
    (received_inv_message mW8 1 [.block 3, .block 2] 0).2.outgoing_command_queue =
      mW8.outgoing_command_queue := by
  have h := inv_message_amended mW8 1 piW [.block 3, .block 2] 0 (by decide) (by decide)
  exact ⟨h.1, h.2.1 2 (by decide), h.2.2.2.2 (by decide)⟩

/-! ### Expiry of GetData requests on tick (C4) and the frontier (C5) -/

theorem nodup_key_inj {κ α : Type} [DecidableEq κ] {l : List (κ × α)}
    (hnd : (l.map Prod.fst).Nodup) {p q : κ × α}
    (hp : p ∈ l) (hq : q ∈ l) (heq : p.1 = q.1) : p = q := by
  induction l with
  | nil => cases hp
  | cons r rest ih =>
    simp only [List.map_cons, List.nodup_cons] at hnd
    rcases List.mem_cons.1 hp with h1 | h1
    · rcases List.mem_cons.1 hq with h2 | h2
      · rw [h1, h2]
      · subst h1
        exact absurd (heq ▸ List.mem_map_of_mem Prod.fst h2) hnd.1
    · rcases List.mem_cons.1 hq with h2 | h2
      · subst h2
        exact absurd (heq ▸ List.mem_map_of_mem Prod.fst h1) hnd.1
      · exact ih hnd.2 h1 h2

theorem mem_foldl_alRemove_subset {κ α : Type} [DecidableEq κ] (ks : List κ) :
    ∀ (l : List (κ × α)) (p : κ × α), p ∈ ks.foldl alRemove l → p ∈ l := by
  induction ks with
  | nil => intro l p hp; exact hp
  | cons k rest ih =>
    intro l p hp
    exact mem_of_mem_alRemove (ih (alRemove l k) p hp)

theorem mem_foldl_alRemove_of_not {κ α : Type} [DecidableEq κ] (ks : List κ) :
    ∀ (l : List (κ × α)) (p : κ × α), p ∈ l → ¬(p.1 ∈ ks) → p ∈ ks.foldl alRemove l := by
  induction ks with
  | nil => intro l p hp _; exact hp
  | cons k rest ih =>
    intro l p hp hk
    have hk1 : p.1 ≠ k := fun he => hk (he ▸ List.mem_cons_self k rest)
    have hk2 : ¬(p.1 ∈ rest) := fun he => hk (List.mem_cons.2 (Or.inr he))
    exact ih (alRemove l k) p (mem_alRemove_of_mem k hp hk1) hk2

theorem alGet_none_foldl_alRemove {κ α : Type} [DecidableEq κ] (ks : List κ)
    (l : List (κ × α)) (k : κ) (h : alGet l k = none) :
    alGet (ks.foldl alRemove l) k = none := by
  rw [alGet_none_iff] at h ⊢
  intro p hp
  exact h p (mem_foldl_alRemove_subset ks l p hp)

theorem foldl_keys_sublist {κ α : Type} [DecidableEq κ] (ks : List κ) :
    ∀ (l : List (κ × α)), ((ks.foldl alRemove l).map Prod.fst).Sublist (l.map Prod.fst) := by
  induction ks with
  | nil => intro l; exact List.Sublist.refl _
  | cons k rest ih =>
    intro l
    exact (ih (alRemove l k)).trans (alRemove_keys_sublist l k)

theorem alGet_foldl_alRemove_none {κ α : Type} [DecidableEq κ] (ks : List κ) :
    ∀ (l : List (κ × α)) (k : κ), (l.map Prod.fst).Nodup → k ∈ ks →
      alGet (ks.foldl alRemove l) k = none := by
  induction ks with
  | nil => intro l k _ hk; cases hk
  | cons k0 rest ih =>
    intro l k hnd hk
    rcases List.mem_cons.1 hk with h1 | h1
    · subst h1
      exact alGet_none_foldl_alRemove rest (alRemove l k) k
        (alGet_alRemove_self_of_nodup hnd)
    · exact ih (alRemove l k0) k (hnd.sublist (alRemove_keys_sublist l k0)) h1

/-- Net effect of the per-expired-request decrements on one peer's counter. -/
theorem foldl_decrement_counter (lst : List (Inventory × GetDataRequestInfo)) :
    ∀ (ps : List (Addr × PeerInfo)) (addr : Addr),
      alGet (lst.foldl (fun ps p =>
        alUpdate ps p.2.socket (fun peer =>
          { peer with num_of_outstanding_get_data_requests :=
              peer.num_of_outstanding_get_data_requests - 1 })) ps) addr =
      (alGet ps addr).map (fun pi =>
        { pi with num_of_outstanding_get_data_requests :=
            pi.num_of_outstanding_get_data_requests -
              lst.countP (fun p => decide (p.2.socket = addr)) }) := by
  induction lst with
  | nil =>
    intro ps addr
    rcases h : alGet ps addr with _ | pi
    · simp [h]
    · simp only [List.foldl_nil, h, List.countP_nil, Nat.sub_zero, Option.map_some']
  | cons q rest ih =>
    intro ps addr
    by_cases hq : q.2.socket = addr
    · rw [List.foldl_cons, ih, hq, alGet_update_self]
      rcases h : alGet ps addr with _ | pi
      · simp
      · have hc : (q :: rest).countP (fun p => decide (p.2.socket = addr)) =
            rest.countP (fun p => decide (p.2.socket = addr)) + 1 := by
          rw [List.countP_cons]
          simp [hq]
        rw [hc]
        simp only [Option.map_some']
        have harith : ∀ n k : Nat, n - 1 - k = n - (k + 1) := by omega
        rw [harith]
    · rw [List.foldl_cons, ih, alGet_update_ne _ _ _ _ (fun he => hq he.symm)]
      have hc : (q :: rest).countP (fun p => decide (p.2.socket = addr)) =
          rest.countP (fun p => decide (p.2.socket = addr)) := by
        rw [List.countP_cons]
        simp [hq]
      rw [hc]

theorem foldl_dispatch_pending (addr : Addr) (now : Nat) (sel : List Inventory) :
    ∀ (st : DispatchSt) (p : Inventory × GetDataRequestInfo),
      p ∈ (sel.foldl (fun acc inv =>
        { acc with
          pending := alInsert acc.pending inv
            { socket := addr, inventory := inv, sent_at := now, on_timeout := .Ignore }
          cands := acc.cands.filter (fun c => decide ¬(c = inv)) }) st).pending →
      p ∈ st.pending ∨ p.2.sent_at = now := by
  induction sel with
  | nil => exact fun st p hp => Or.inl hp
  | cons inv rest ih =>
    intro st p hp
    rcases ih _ p hp with h1 | h1
    · rcases mem_alInsert _ _ _ _ h1 with h2 | h2
      · right
        rw [h2]
      · exact Or.inl h2
    · exact Or.inr h1

theorem foldl_dispatch_cands (addr : Addr) (now : Nat) (sel : List Inventory) :
    ∀ (st : DispatchSt) (inv' : Inventory),
      inv' ∈ (sel.foldl (fun acc inv =>
        { acc with
          pending := alInsert acc.pending inv
            { socket := addr, inventory := inv, sent_at := now, on_timeout := .Ignore }
          cands := acc.cands.filter (fun c => decide ¬(c = inv)) }) st).cands →
      inv' ∈ st.cands := by
  induction sel with
  | nil => exact fun st inv' hp => hp
  | cons inv rest ih =>
    intro st inv' hp
    exact (List.mem_filter.1 (ih _ inv' hp)).1

theorem dispatchLoop_pending (sample : List Inventory → Nat → List Inventory) (now : Nat)
    (peers : List (Addr × PeerInfo)) :
    ∀ (st : DispatchSt) (p : Inventory × GetDataRequestInfo),
      p ∈ (dispatchLoop sample now peers st).pending →
      p ∈ st.pending ∨ p.2.sent_at = now := by
  induction peers with
  | nil => exact fun st p hp => Or.inl hp
  | cons q rest ih =>
    intro st p hp
    rcases q with ⟨addr, peer⟩
    simp only [dispatchLoop] at hp
    by_cases hsel : sample st.cands
        (INV_PER_GET_DATA_REQUEST - peer.num_of_outstanding_get_data_requests) = []
    · rw [if_pos hsel] at hp
      exact Or.inl hp
    · rw [if_neg hsel] at hp
      rcases ih _ p hp with h1 | h1
      · rcases foldl_dispatch_pending addr now _ _ p h1 with h2 | h2
        · exact Or.inl h2
        · exact Or.inr h2
      · exact Or.inr h1

theorem dispatchLoop_cands (sample : List Inventory → Nat → List Inventory) (now : Nat)
    (peers : List (Addr × PeerInfo)) :
    ∀ (st : DispatchSt) (inv' : Inventory),
      inv' ∈ (dispatchLoop sample now peers st).cands → inv' ∈ st.cands := by
  induction peers with
  | nil => exact fun st inv' hp => hp
  | cons q rest ih =>
    intro st inv' hp
    rcases q with ⟨addr, peer⟩
    simp only [dispatchLoop] at hp
    by_cases hsel : sample st.cands
        (INV_PER_GET_DATA_REQUEST - peer.num_of_outstanding_get_data_requests) = []
    · rw [if_pos hsel] at hp
      exact hp
    · rw [if_neg hsel] at hp
      have h1 := ih _ inv' hp
      have h2 := foldl_dispatch_cands addr now _ _ inv' h1
      exact h2

/-- The expired entries of the request map at time `now`. -/
def expiredRequests (m : BlockchainManager) (now : Nat) :
    List (Inventory × GetDataRequestInfo) :=
  m.get_data_request_info.filter
    (fun p => decide (p.2.sent_at + GETDATA_REQUEST_TIMEOUT_SECS < now))

/-- C4 (amended): expired PendingFetch entries are removed — and the owning
(still-tracked) peer's outstanding-fetch counter decremented once per expired
entry — by the expiry pass of `sync_blocks`, but that pass runs only on ticks
where the sync frontier is non-empty: with an empty `inventory_to_be_synced`,
`sync_blocks` returns immediately and expired entries persist (see the
counterexample).  After a non-empty-frontier pass no expired entry remains. -/
theorem tick_expiry_amended (m : BlockchainManager) (now : Nat)
    (sample : List Inventory → Nat → List Inventory)
    (hwf : ∀ p ∈ m.get_data_request_info, p.1 = p.2.inventory)
    (hnd : (m.get_data_request_info.map Prod.fst).Nodup) :
    (m.inventory_to_be_synced = [] → sync_blocks m now sample = m) ∧
    (∀ p, p ∈ (filter_expired_get_data_requests m now).get_data_request_info ↔
      (p ∈ m.get_data_request_info ∧
        ¬(p.2.sent_at + GETDATA_REQUEST_TIMEOUT_SECS < now))) ∧
    (∀ addr pi, alGet m.peer_info addr = some pi →
      alGet (filter_expired_get_data_requests m now).peer_info addr =
        some { pi with num_of_outstanding_get_data_requests :=
          pi.num_of_outstanding_get_data_requests -
            ((expiredRequests m now).countP (fun p => decide (p.2.socket = addr))) }) ∧
    (m.inventory_to_be_synced ≠ [] →
      ∀ p ∈ (sync_blocks m now sample).get_data_request_info,
        ¬(p.2.sent_at + GETDATA_REQUEST_TIMEOUT_SECS < now)) := by
  have hfilter_iff : ∀ p, p ∈ (filter_expired_get_data_requests m now).get_data_request_info ↔
      (p ∈ m.get_data_request_info ∧
        ¬(p.2.sent_at + GETDATA_REQUEST_TIMEOUT_SECS < now)) := by
    intro p
    constructor
    · intro hp
      have hmem : p ∈ m.get_data_request_info :=
        mem_foldl_alRemove_subset _ _ p hp
      refine ⟨hmem, ?_⟩
      intro hexp
      have hpe : p ∈ m.get_data_request_info.filter
          (fun p => decide (p.2.sent_at + GETDATA_REQUEST_TIMEOUT_SECS < now)) :=
        List.mem_filter.2 ⟨hmem, decide_eq_true hexp⟩
      have hkey : p.1 ∈ (m.get_data_request_info.filter
          (fun p => decide (p.2.sent_at + GETDATA_REQUEST_TIMEOUT_SECS < now))).map
          (fun p => p.2.inventory) := by
        rw [hwf p hmem]
        exact List.mem_map_of_mem _ hpe
      have hnone := alGet_foldl_alRemove_none _ m.get_data_request_info p.1 hnd hkey
      have hsome : (alGet (((m.get_data_request_info.filter
          (fun p => decide (p.2.sent_at + GETDATA_REQUEST_TIMEOUT_SECS < now))).map
          (fun p => p.2.inventory)).foldl alRemove m.get_data_request_info) p.1).isSome :=
        alGet_isSome_of_mem hp
      rw [hnone] at hsome
      cases hsome
    · rintro ⟨hmem, hnexp⟩
      apply mem_foldl_alRemove_of_not _ _ p hmem
      intro hkey
      obtain ⟨q, hq, hqk⟩ := List.mem_map.1 hkey
      have hq' : q ∈ m.get_data_request_info := (List.mem_filter.1 hq).1
      have hqexp := of_decide_eq_true (List.mem_filter.1 hq).2
      have hkeq : q.1 = p.1 := (hwf q hq').trans hqk
      have heqq : q = p := nodup_key_inj hnd hq' hmem hkeq
      rw [heqq] at hqexp
      exact hnexp hqexp
  refine ⟨?_, hfilter_iff, ?_, ?_⟩
  · intro h
    simp [sync_blocks, h]
  · intro addr pi hp
    have hpeers : (filter_expired_get_data_requests m now).peer_info =
        (m.get_data_request_info.filter
          (fun p => decide (p.2.sent_at + GETDATA_REQUEST_TIMEOUT_SECS < now))).foldl
          (fun ps p =>
            alUpdate ps p.2.socket (fun peer =>
              { peer with num_of_outstanding_get_data_requests :=
                  peer.num_of_outstanding_get_data_requests - 1 })) m.peer_info := rfl
    rw [hpeers, foldl_decrement_counter, hp]
    rfl
  · intro hne p hp
    have hsync : (sync_blocks m now sample).get_data_request_info =
        (dispatchLoop sample now (sortPeersByOutstanding
            (filter_expired_get_data_requests m now).peer_info)
          { peers := (filter_expired_get_data_requests m now).peer_info
            pending := (filter_expired_get_data_requests m now).get_data_request_info
            cands := (filter_expired_get_data_requests m now).inventory_to_be_synced.filter
              (fun inv => decide
                (alGet (filter_expired_get_data_requests m now).get_data_request_info inv = none))
            queue := (filter_expired_get_data_requests m now).outgoing_command_queue }).pending := by
      simp only [sync_blocks, if_neg hne]
    rw [hsync] at hp
    rcases dispatchLoop_pending sample now _ _ p hp with h1 | h1
    · exact ((hfilter_iff p).1 h1).2
    · rw [h1]
      omega

def invX : Inventory := .block 7

def reqX : GetDataRequestInfo :=
  { socket := 1, inventory := invX, sent_at := 0, on_timeout := .Ignore }

def piC4 : PeerInfo :=
  { socket := 1, height := 0, tip := 1, last_asked := none, sent_at := none,
    on_timeout := .Ignore, num_of_outstanding_get_data_requests := 1 }

/-- One tracked, connected peer with an expired outstanding request and an
empty sync frontier. -/
def mC4 : BlockchainManager :=
  { blockchain := BlockchainState.new g0
    peer_info := [(1, piC4)]
    get_data_request_info := [(invX, reqX)]
    inventory_to_be_synced := []
    outgoing_command_queue := [] }

/-- C4 counterexample: at time 31 the only PendingFetch (sent at 0) is well
past the 30-second timeout, yet a tick with an empty sync frontier leaves the
manager completely unchanged — the entry is not removed and the peer's
outstanding counter stays at 1 — because `sync_blocks` returns before the
expiry pass when `inventory_to_be_synced` is empty. -/
theorem tick_expiry_counterexample :
    reqX.sent_at + GETDATA_REQUEST_TIMEOUT_SECS < 31 ∧
    tick mC4 [1] 31 (fun _ _ => []) = (mC4, []) ∧
    (alGet (tick mC4 [1] 31 (fun _ _ => [])).1.get_data_request_info invX).isSome = true ∧
    ((alGet (tick mC4 [1] 31 (fun _ _ => [])).1.peer_info 1).map
      PeerInfo.num_of_outstanding_get_data_requests) = some 1 :=
  ⟨by decide, rfl, by decide, by decide⟩

def invA : Inventory := .block 5

/-- No peers, an expired PendingFetch for `invX`, and a frontier holding only
the unrelated item `invA`. -/
def mC5 : BlockchainManager :=
  { blockchain := BlockchainState.new g0
    peer_info := []
    get_data_request_info := [(invX, reqX)]
    inventory_to_be_synced := [invA]
    outgoing_command_queue := [] }

/-- C5 counterexample: the tick at time 31 does expire `invX`'s PendingFetch
(its entry is removed from the request map), yet afterwards `invX` is *not* a
member of the sync frontier — items are dropped from the frontier when
dispatched and never re-added on expiry. -/
theorem expiry_frontier_counterexample :
    reqX.sent_at + GETDATA_REQUEST_TIMEOUT_SECS < 31 ∧
    (tick mC5 [] 31 (fun _ _ => [])).1.get_data_request_info = [] ∧
    (tick mC5 [] 31 (fun _ _ => [])).1.inventory_to_be_synced = [invA] ∧
    ¬(invX ∈ (tick mC5 [] 31 (fun _ _ => [])).1.inventory_to_be_synced) := by
  decide

theorem tick_expiry_amended_witness :
    (∀ p ∈ mC5.get_data_request_info, p.1 = p.2.inventory) ∧
    mC5.inventory_to_be_synced ≠ [] ∧
    ∀ p ∈ (sync_blocks mC5 31 (fun _ _ => [])).get_data_request_info,
      ¬(p.2.sent_at + GETDATA_REQUEST_TIMEOUT_SECS < 31) := by
  refine ⟨by decide, by decide, ?_⟩
  exact (tick_expiry_amended mC5 31 (fun _ _ => []) (by decide) (by decide)).2.2.2 (by decide)

/-! ### The frontier only shrinks on tick (C5) -/

theorem send_getheaders_frontier (m : BlockchainManager) (addr : Addr) (locators : Locators)
    (t : OnTimeout) (now : Nat) :
    (send_getheaders m addr locators t now).inventory_to_be_synced =
      m.inventory_to_be_synced := by
  by_cases h : (alGet m.peer_info addr).isSome <;> simp [send_getheaders, h]

theorem add_peer_frontier (m : BlockchainManager) (addr : Addr) (now : Nat) :
    (add_peer m addr now).inventory_to_be_synced = m.inventory_to_be_synced := by
  by_cases h : (alGet m.peer_info addr).isSome
  · simp [add_peer, h]
  · simp only [add_peer, h, if_neg, Bool.false_eq_true, if_false]
    rw [send_getheaders_frontier]

theorem foldl_remove_frontier (l : List Addr) :
    ∀ m : BlockchainManager,
      (l.foldl (fun acc a => remove_peer acc a) m).inventory_to_be_synced =
        m.inventory_to_be_synced := by
  induction l with
  | nil => intro m; rfl
  | cons a rest ih => intro m; exact ih (remove_peer m a)

theorem foldl_add_frontier (conns : List Addr) (now : Nat) :
    ∀ m : BlockchainManager,
      (conns.foldl (fun acc a =>
        if (alGet acc.peer_info a).isSome then acc
        else add_peer acc a now) m).inventory_to_be_synced = m.inventory_to_be_synced := by
  induction conns with
  | nil => intro m; rfl
  | cons a rest ih =>
    intro m
    by_cases h : (alGet m.peer_info a).isSome
    · rw [List.foldl_cons, if_pos h]
      exact ih m
    · rw [List.foldl_cons, if_neg h, ih (add_peer m a now), add_peer_frontier]

theorem sync_blocks_frontier_subset (m : BlockchainManager) (now : Nat)
    (sample : List Inventory → Nat → List Inventory) :
    ∀ inv, inv ∈ (sync_blocks m now sample).inventory_to_be_synced →
      inv ∈ m.inventory_to_be_synced := by
  intro inv h
  by_cases hne : m.inventory_to_be_synced = []
  · rw [show sync_blocks m now sample = m from by simp [sync_blocks, hne]] at h
    exact h
  · have hs : (sync_blocks m now sample).inventory_to_be_synced =
        (dispatchLoop sample now (sortPeersByOutstanding
            (filter_expired_get_data_requests m now).peer_info)
          { peers := (filter_expired_get_data_requests m now).peer_info
            pending := (filter_expired_get_data_requests m now).get_data_request_info
            cands := (filter_expired_get_data_requests m now).inventory_to_be_synced.filter
              (fun inv => decide
                (alGet (filter_expired_get_data_requests m now).get_data_request_info inv = none))
            queue := (filter_expired_get_data_requests m now).outgoing_command_queue }).cands := by
      simp only [sync_blocks, if_neg hne]
    rw [hs] at h
    have h1 := dispatchLoop_cands sample now _ _ inv h
    have h2 := (List.mem_filter.1 h1).1
    exact h2

/-- C5 (amended): the sync frontier never gains an item during a tick — in
particular, when a tick expires a PendingFetch, the expired inventory item is
*not* moved back into `inventory_to_be_synced` (it left the frontier when the
request was dispatched); it becomes fetchable again only if re-inserted by a
later client request.  Formally, the frontier after a tick is a subset of the
frontier before it. -/
theorem tick_frontier_subset (m : BlockchainManager) (conns : List Addr) (now : Nat)
    (sample : List Inventory → Nat → List Inventory) :
    ∀ inv, inv ∈ (tick m conns now sample).1.inventory_to_be_synced →
      inv ∈ m.inventory_to_be_synced := by
  intro inv h
  simp only [tick] at h
  have h4 := sync_blocks_frontier_subset _ now sample inv h
  rw [foldl_add_frontier, foldl_remove_frontier] at h4
  exact h4

theorem tick_frontier_subset_witness :
    invA ∈ (tick mC5 [] 31 (fun _ _ => [])).1.inventory_to_be_synced ∧
    invA ∈ mC5.inventory_to_be_synced :=
  ⟨by decide, tick_frontier_subset mC5 [] 31 (fun _ _ => []) invA (by decide)⟩
